import Mathlib

/-!
Verification of the symtypes corpus tooling (`src/sym.rs`).

The development shallowly embeds the Rust code: hash maps become association
lists whose `insert` replaces any previous binding for the key (so `lookup`
and iteration agree with the `HashMap` semantics the code relies on), machine
`usize` indices become `Nat`, and the `panic!` branches of the resolution
helpers become `Option`/explicit `panic` results.  Input files are modelled as
the list of their lines, each line already split into its whitespace-separated
words (Rust's `split_ascii_whitespace` yields exactly the non-empty words).
-/

namespace SymTypes

/-- A declaration word: either a reference to another named type or a literal
atom.  Mirrors `enum Token` in `sym.rs`. -/
inductive Token where
  | TypeRef : String → Token
  | Atom : String → Token
deriving DecidableEq, Repr

/-- `Token::as_str`: the stored text of the token. -/
def Token.as_str : Token → String
  | .TypeRef ref_name => ref_name
  | .Atom word => word

abbrev Tokens := List Token

/-- Lookup of the most recent binding of key `k`.  Mirrors `HashMap::get`. -/
def alookup {β : Type} (k : String) : List (String × β) → Option β
  | [] => none
  | (k', v) :: rest => if k' = k then some v else alookup k rest

/-- Insert that replaces any previous binding, so that lookups and iteration
both behave like `HashMap::insert`. -/
def ainsert {β : Type} (k : String) (v : β) (m : List (String × β)) :
    List (String × β) :=
  (k, v) :: m.filter (fun p => p.1 ≠ k)

abbrev Types := List (String × List Tokens)
abbrev Exports := List (String × Nat)
abbrev FileRecords := List (String × Nat)

/-- One loaded `.symtypes` file: its path and the variant index selected for
every name declared in it.  Mirrors `struct SymFile`. -/
structure SymFile where
  path : String
  records : FileRecords
deriving DecidableEq, Repr

/-- The loaded corpus: interned type variants, export index and file list.
Mirrors `struct SymCorpus`. -/
structure SymCorpus where
  types : Types
  exports : Exports
  files : List SymFile
deriving DecidableEq, Repr

def emptyCorpus : SymCorpus := ⟨[], [], []⟩

/-- `SymCorpus::are_tokens_eq`: length check followed by a positional scan. -/
def are_tokens_eq (a b : Tokens) : Bool :=
  if a.length ≠ b.length then false
  else (List.zip a b).all (fun p => p.1 = p.2)

/-- The `for (i, variant) in variants.iter().enumerate()` search inside
`SymCorpus::merge_type`: index of the first variant structurally equal to
`tokens`. -/
def find_variant (tokens : Tokens) : List Tokens → Option Nat
  | [] => none
  | v :: rest =>
    if are_tokens_eq tokens v then some 0
    else (find_variant tokens rest).map (· + 1)

/-- `SymCorpus::merge_type`: dedup-or-append interning of a token sequence
under a name; returns the variant index together with the updated table. -/
def merge_type (types : Types) (name : String) (tokens : Tokens) : Nat × Types :=
  match alookup name types with
  | some variants =>
    match find_variant tokens variants with
    | some i => (i, types)
    | none => (variants.length, ainsert name (variants ++ [tokens]) types)
  | none => (0, ainsert name [tokens] types)

/-- Tokenisation of one declaration word: a reference iff its second character
is `#`.  Mirrors the loop body in `SymCorpus::load_file`. -/
def tokenizeWord (w : String) : Token :=
  let is_typeref : Bool :=
    match w.data.get? 1 with
    | some ch => ch = '#'
    | none => false
  if is_typeref then Token.TypeRef w else Token.Atom w

/-- The export-index update for one declared name: inserted iff the name's
second character exists and is not `#`.  Mirrors the `match name.chars().nth(1)`
block of `SymCorpus::load_file`. -/
def exportUpdate (name : String) (file_idx : Nat) (exports : Exports) : Exports :=
  match name.data.get? 1 with
  | some ch => if ch ≠ '#' then ainsert name file_idx exports else exports
  | none => exports

/-- Processing of one input line by `SymCorpus::load_file`: a line with no
words is skipped; otherwise the head word is the declared name, the remaining
words are tokenised and merged, the variant index is recorded, and names whose
second character is not `#` are added to the export index (pointing at the
index the current file will receive). -/
def processLine (c : SymCorpus) (records : FileRecords) (words : List String) :
    SymCorpus × FileRecords :=
  match words with
  | [] => (c, records)
  | name :: rest =>
    let tokens := rest.map tokenizeWord
    let mt := merge_type c.types name tokens
    let records' := ainsert name mt.1 records
    let exports' := exportUpdate name c.files.length c.exports
    ({ c with types := mt.2, exports := exports' }, records')

/-- The line-processing fold of `SymCorpus::load_file`. -/
def load_lines (c : SymCorpus) (records : FileRecords) (lines : List (List String)) :
    SymCorpus × FileRecords :=
  lines.foldl (fun (p : SymCorpus × FileRecords) l => processLine p.1 p.2 l) (c, records)

/-- `SymCorpus::load_file` on an already-read file (its path and lines). -/
def load_file (c : SymCorpus) (path : String) (lines : List (List String)) : SymCorpus :=
  let st := load_lines c [] lines
  { st.1 with files := st.1.files ++ [⟨path, st.2⟩] }

/-- Loading a sequence of files into an initially empty corpus, as
`SymCorpus::new`/`load_dir` does for every `.symtypes` file found. -/
def load_files (inputs : List (String × List (List String))) : SymCorpus :=
  inputs.foldl (fun c i => load_file c i.1 i.2) emptyCorpus

/-- `SymCorpus::get_type_tokens`: resolve a name through a file's records and
the type table.  The Rust function panics when the name is unknown in the file,
when the declaration is missing from the table, or when the stored index is out
of bounds; all three panic paths are `none` here. -/
def get_type_tokens (c : SymCorpus) (file : SymFile) (name : String) : Option Tokens :=
  match alookup name file.records with
  | some variant_idx =>
    match alookup name c.types with
    | some variants => variants.get? variant_idx
    | none => none
  | none => none

abbrev TypeChanges := List (String × List (Tokens × Tokens))

/-- The change list stored for a name, `[]` when none was recorded yet. -/
def lookupCD (changes : TypeChanges) (name : String) : List (Tokens × Tokens) :=
  (alookup name changes).getD []

/-- `SymCorpus::record_type_change`: merge one (A-sequence, B-sequence) pair
into the change set for `name`, deduplicating against pairs already stored. -/
def record_type_change (name : String) (tokens other_tokens : Tokens)
    (changes : TypeChanges) : TypeChanges :=
  match alookup name changes with
  | some variants =>
    if variants.any (fun p => are_tokens_eq tokens p.1 && are_tokens_eq other_tokens p.2) then
      changes
    else
      ainsert name (variants ++ [(tokens, other_tokens)]) changes
  | none => ainsert name [(tokens, other_tokens)] changes

instance : DecidableEq (List String × TypeChanges) := instDecidableEqProd

instance : DecidableEq (TypeChanges × List String × List String) := instDecidableEqProd

/-- Result of a comparator run.  `panic` is any of the Rust `panic!` branches;
`fuelOut` is an artefact of the fuel-indexed embedding and is proved
unreachable for sufficient fuel. -/
inductive CRes (α : Type) where
  | panic : CRes α
  | fuelOut : CRes α
  | ok : α → CRes α
deriving DecidableEq, Repr

/-- One position of the comparison loop of `SymCorpus::compare_types` (the
`is_equal &= match (token, other_token)` body), abstracted over the recursive
comparison `cmp` of a referenced name: two references with equal names recurse
and match; two atoms match iff their texts are equal; a mixed pair never
matches. -/
def loop_step (cmp : String → List String → TypeChanges →
      CRes (List String × TypeChanges))
    (token other_token : Token) (processed : List String) (changes : TypeChanges) :
    CRes (Bool × List String × TypeChanges) :=
  match token, other_token with
  | .TypeRef ref_name, .TypeRef other_ref_name =>
    if ref_name = other_ref_name then
      match cmp ref_name processed changes with
      | .ok (p, c) => .ok (true, p, c)
      | .panic => .panic
      | .fuelOut => .fuelOut
    else .ok (false, processed, changes)
  | .Atom word, .Atom other_word => .ok ((word = other_word : Bool), processed, changes)
  | _, _ => .ok (false, processed, changes)

/-- The comparison loop of `SymCorpus::compare_types`.  It scans the zipped
token sequences (`0..min` positions), threads the visited set and change set
through nested comparisons, and returns the conjunction of all per-position
verdicts: the scan never stops early on a mismatch. -/
def compare_loop (cmp : String → List String → TypeChanges →
      CRes (List String × TypeChanges))
    (pairs : List (Token × Token)) (processed : List String) (changes : TypeChanges) :
    CRes (Bool × List String × TypeChanges) :=
  match pairs with
  | [] => .ok (true, processed, changes)
  | (token, other_token) :: rest =>
    match loop_step cmp token other_token processed changes with
    | .ok (eq1, p, c) =>
      match compare_loop cmp rest p c with
      | .ok (eqr, p2, c2) => .ok (eq1 && eqr, p2, c2)
      | .panic => .panic
      | .fuelOut => .fuelOut
    | .panic => .panic
    | .fuelOut => .fuelOut

/-- `SymCorpus::compare_types`, fuel-indexed.  A name already visited for this
root returns immediately; otherwise it is marked visited, both sides are
resolved (a failed resolution is the Rust panic), every position up to the
shorter length is compared without short-circuiting, and a change is recorded
exactly when the verdict is false. -/
def compare_types : Nat → SymCorpus → SymCorpus → SymFile → SymFile → String →
    List String → TypeChanges → CRes (List String × TypeChanges)
  | 0, _, _, _, _, _, _, _ => .fuelOut
  | fuel + 1, a, b, file, other_file, name, processed, changes =>
    if name ∈ processed then .ok (processed, changes)
    else
      let processed1 := name :: processed
      match get_type_tokens a file name, get_type_tokens b other_file name with
      | some tokens, some other_tokens =>
        match compare_loop (fun r p c => compare_types fuel a b file other_file r p c)
            (tokens.zip other_tokens) processed1 changes with
        | .ok (all_eq, p, c) =>
          let is_equal := (tokens.length = other_tokens.length : Bool) && all_eq
          .ok (p, if is_equal then c else record_type_change name tokens other_tokens c)
        | .panic => .panic
        | .fuelOut => .fuelOut
      | _, _ => .panic

/-- Root-level loop of `SymCorpus::compare_with` over the exports of corpus A,
accumulating the shared change set across roots and the list of exports only
present in A.  Per-root fuel is one more than the file's record count, which
the termination theorem shows is always sufficient. -/
def compare_roots (a b : SymCorpus) :
    List (String × Nat) → TypeChanges → List String → CRes (TypeChanges × List String)
  | [], changes, only_a => .ok (changes, only_a)
  | (name, file_idx) :: rest, changes, only_a =>
    match a.files.get? file_idx with
    | none => .panic
    | some file =>
      match alookup name b.exports with
      | some other_file_idx =>
        match b.files.get? other_file_idx with
        | none => .panic
        | some other_file =>
          match compare_types (file.records.length + 1) a b file other_file name [] changes with
          | .ok (_, changes') => compare_roots a b rest changes' only_a
          | .panic => .panic
          | .fuelOut => .fuelOut
      | none => compare_roots a b rest changes (only_a ++ [name])

/-- `SymCorpus::compare_with`: walk every export of A (reporting those missing
from B), then report exports of B missing from A, returning the accumulated
change set and both presence lists. -/
def compare_with (a b : SymCorpus) : CRes (TypeChanges × List String × List String) :=
  match compare_roots a b a.exports [] [] with
  | .ok (changes, only_a) =>
    let only_b := (b.exports.map Prod.fst).filter (fun n => (alookup n a.exports).isNone)
    .ok (changes, only_a, only_b)
  | .panic => .panic
  | .fuelOut => .fuelOut

/-- `line.push_indent(indent)`: append `indent` tab characters. -/
def tabs : Nat → String
  | 0 => ""
  | n + 1 => tabs n ++ "\t"

/-- State of the `pretty_format_type` loop: finished lines, current
indentation level, and the pending line. -/
structure PFState where
  res : List String
  indent : Nat
  line : String
deriving DecidableEq, Repr

/-- One iteration of the token loop in `pretty_format_type`. -/
def pfStep (st : PFState) (tok : Token) : PFState :=
  let st :=
    if tok.as_str = "\x7d" then
      { res := if st.line = "" then st.res else st.res ++ [st.line],
        indent := st.indent - 1,
        line := "" }
    else st
  let is_first := st.line = ""
  let line := if is_first then st.line ++ tabs st.indent else st.line
  if tok.as_str = "\x7b" then
    { res := st.res ++ [(if is_first then line else line ++ " ") ++ "\x7b"],
      indent := st.indent + 1,
      line := "" }
  else if tok.as_str = "\x7d" then
    { st with line := line ++ "\x7d" }
  else if tok.as_str = ";" then
    { st with res := st.res ++ [line ++ ";"], line := "" }
  else if tok.as_str = "," then
    { st with res := st.res ++ [line ++ ","], line := "" }
  else
    { st with line := (if is_first then line else line ++ " ") ++ tok.as_str }

/-- `pretty_format_type`: fold the step over the tokens and flush any
non-empty pending line at end of input. -/
def pretty_format_type (tokens : Tokens) : List String :=
  let fin := tokens.foldl pfStep ⟨[], 0, ""⟩
  if fin.line = "" then fin.res else fin.res ++ [fin.line]

/-- The per-position verdict the comparison loop combines (names equal for two
references, texts equal for two atoms, false for any mixed pair). -/
def pairMatch : Token × Token → Bool
  | (.TypeRef ref_name, .TypeRef other_ref_name) => ref_name = other_ref_name
  | (.Atom word, .Atom other_word) => word = other_word
  | _ => false

/-- The `is_equal` computation of `SymCorpus::compare_types`: seeded by the
length comparison and conjoined with the verdict of every position up to the
shorter length (the scan inspects all of them; it never stops early). -/
def is_equal_verdict (tokens other_tokens : Tokens) : Bool :=
  (tokens.length = other_tokens.length : Bool) && (tokens.zip other_tokens).all pairMatch

/-- Number of record names of a file not yet in the visited set: the measure
that bounds the comparator's recursion for one root. -/
def remCount (records : FileRecords) (processed : List String) : Nat :=
  ((records.map Prod.fst).filter (fun k => k ∉ processed)).length

/-- A name visited by one root walk: both sides resolve, every
same-name reference pair of its two sequences was entered, and when the two
sequences differ the pair is recorded under the name. -/
def visitedOK (a b : SymCorpus) (file other_file : SymFile) (p' : List String)
    (c' : TypeChanges) (m : String) : Prop :=
  ∃ tm otm, get_type_tokens a file m = some tm ∧ get_type_tokens b other_file m = some otm ∧
    (∀ r, (Token.TypeRef r, Token.TypeRef r) ∈ tm.zip otm → r ∈ p') ∧
    (tm ≠ otm → (tm, otm) ∈ lookupCD c' m)

/-- The state invariant of one comparator call relating its input visited set
and change set to the output ones. -/
def stepInv (a b : SymCorpus) (file other_file : SymFile)
    (processed : List String) (changes : TypeChanges)
    (p' : List String) (c' : TypeChanges) : Prop :=
  processed ⊆ p' ∧
  (∀ m ∈ p', m ∈ processed ∨ visitedOK a b file other_file p' c' m) ∧
  (∀ m pr, pr ∈ lookupCD changes m → pr ∈ lookupCD c' m) ∧
  (∀ m ∈ processed, lookupCD c' m = lookupCD changes m) ∧
  ((∀ m, (lookupCD changes m).Nodup) → ∀ m, (lookupCD c' m).Nodup) ∧
  (processed.Nodup → p'.Nodup)

/-- The invariant bundle of a recursive comparison function. -/
def CmpInv (a b : SymCorpus) (file other_file : SymFile)
    (cmp : String → List String → TypeChanges → CRes (List String × TypeChanges)) : Prop :=
  ∀ r processed changes p' c', cmp r processed changes = .ok (p', c') →
    stepInv a b file other_file processed changes p' c' ∧ r ∈ p'

/-- Names reachable from a root by chains of reference pairs that carry the
same name on both sides (the pairs the comparator recurses into). -/
inductive lockstep_reachable (a b : SymCorpus) (file other_file : SymFile) (root : String) :
    String → Prop
  | refl : lockstep_reachable a b file other_file root root
  | step {m r tm otm} : lockstep_reachable a b file other_file root m →
      get_type_tokens a file m = some tm →
      get_type_tokens b other_file m = some otm →
      (Token.TypeRef r, Token.TypeRef r) ∈ tm.zip otm →
      lockstep_reachable a b file other_file root r

/-- Validity of one file's records against a type table: every recorded index
selects an existing variant of an existing name. -/
def types_wf (types : Types) (records : FileRecords) : Prop :=
  ∀ name idx, alookup name records = some idx →
    ∃ vs, alookup name types = some vs ∧ idx < vs.length

/-- The consistency invariant a successful load establishes. -/
def corpus_wf (c : SymCorpus) : Prop :=
  ∀ file ∈ c.files, types_wf c.types file.records

/-- Concrete corpus with a dangling type reference: `foo` is exported and its
declaration references `s#bar`, but no line declares `s#bar`. -/
def danglingCorpus : SymCorpus :=
  load_files [("a.symtypes", [["foo", "s#bar"]])]

/-- Side A of a concrete comparison where both an outer declaration and a type
nested behind an equal-named reference change. -/
def corpusA : SymCorpus :=
  load_files [("a.symtypes", [["s#bar", "x"], ["foo", "s#bar", "p"]])]

/-- Side B of that comparison. -/
def corpusB : SymCorpus :=
  load_files [("a.symtypes", [["s#bar", "y"], ["foo", "s#bar", "q"]])]

/-- A concrete corpus whose type reference graph is cyclic: `s#a` references
itself. -/
def cyclicCorpus : SymCorpus :=
  load_files [("a.symtypes", [["s#a", "s#a", "p"], ["foo", "s#a"]])]

/-- The single file of `corpusA`. -/
def fileA : SymFile := ⟨"a.symtypes", [("foo", 0), ("s#bar", 0)]⟩

/-- The single file of `corpusB`. -/
def fileB : SymFile := ⟨"a.symtypes", [("foo", 0), ("s#bar", 0)]⟩

/-- The single file of `cyclicCorpus`. -/
def cyclicFile : SymFile := ⟨"a.symtypes", [("foo", 0), ("s#a", 0)]⟩

/-- The declaration body of `foo` in `corpusA`. -/
def fooTokensA : Tokens := [.TypeRef "s#bar", .Atom "p"]

/-- The declaration body of `foo` in `corpusB`. -/
def fooTokensB : Tokens := [.TypeRef "s#bar", .Atom "q"]

/-- The change set produced by comparing `corpusA` with `corpusB` rooted at
`foo`. -/
def resultChanges : TypeChanges :=
  [("foo", [(fooTokensA, fooTokensB)]),
   ("s#bar", [([Token.Atom "x"], [Token.Atom "y"])])]

/-- The wrongly-balanced token sequence of the repository's
`format_imbalanced` unit test. -/
def imbalancedTokens : Tokens :=
  [.Atom "struct", .Atom "imbalanced", .Atom "\x7b", .Atom "\x7b", .Atom "\x7d",
   .Atom "\x7d", .Atom "\x7d", .Atom ";", .Atom "\x7b", .Atom "\x7b"]

/-! ### Association list lemmas -/

@[simp] theorem alookup_nil {β : Type} (k : String) : alookup (β := β) k [] = none := rfl

@[simp] theorem alookup_cons {β : Type} (k k' : String) (v : β) (m : List (String × β)) :
    alookup k ((k', v) :: m) = if k' = k then some v else alookup k m := rfl

theorem alookup_ainsert_self {β : Type} (k : String) (v : β) (m : List (String × β)) :
    alookup k (ainsert k v m) = some v := by
  simp [ainsert]

theorem alookup_filter_ne {β : Type} (k k' : String) (m : List (String × β))
    (h : k' ≠ k) : alookup k (m.filter (fun p => p.1 ≠ k')) = alookup k m := by
  induction m with
  | nil => rfl
  | cons p rest ih =>
    rcases p with ⟨pk, pv⟩
    rw [List.filter_cons]
    by_cases hpk' : pk = k'
    · subst hpk'
      simp only [decide_not] at ih
      simp [h, ih]
    · rw [if_pos (by simp [hpk'])]
      rw [alookup_cons, alookup_cons, ih]

theorem alookup_ainsert_ne {β : Type} (k k' : String) (v : β) (m : List (String × β))
    (h : k' ≠ k) : alookup k (ainsert k' v m) = alookup k m := by
  unfold ainsert
  rw [alookup_cons, if_neg h]
  exact alookup_filter_ne k k' m h

theorem alookup_mem {β : Type} {k : String} {v : β} {m : List (String × β)}
    (h : alookup k m = some v) : (k, v) ∈ m := by
  induction m with
  | nil => simp at h
  | cons p rest ih =>
    rcases p with ⟨k', v'⟩
    by_cases hk : k' = k
    · subst hk
      simp at h
      simp [h]
    · simp [hk] at h
      exact List.mem_cons_of_mem _ (ih h)

theorem alookup_isSome_of_mem {β : Type} {k : String} {v : β} {m : List (String × β)}
    (h : (k, v) ∈ m) : (alookup k m).isSome := by
  induction m with
  | nil => simp at h
  | cons p rest ih =>
    rcases p with ⟨k', v'⟩
    by_cases hk : k' = k
    · simp [hk]
    · rcases List.mem_cons.mp h with h1 | h2
      · cases h1; simp at hk
      · simp [hk]
        exact ih h2

/-- With no duplicate keys, being an entry pins down the lookup result. -/
theorem alookup_eq_of_mem_nodup {β : Type} {k : String} {v : β} {m : List (String × β)}
    (hnd : (m.map Prod.fst).Nodup) (h : (k, v) ∈ m) : alookup k m = some v := by
  induction m with
  | nil => simp at h
  | cons p rest ih =>
    rcases p with ⟨k', v'⟩
    simp only [List.map_cons, List.nodup_cons] at hnd
    rcases List.mem_cons.mp h with h1 | h2
    · cases h1; simp
    · have hk : k' ≠ k := by
        intro he
        exact hnd.1 (he ▸ List.mem_map_of_mem Prod.fst h2)
      simp [hk]
      exact ih hnd.2 h2

theorem ainsert_keys_nodup {β : Type} (k : String) (v : β) (m : List (String × β))
    (h : (m.map Prod.fst).Nodup) : (((ainsert k v m).map Prod.fst)).Nodup := by
  simp only [ainsert, List.map_cons, List.nodup_cons]
  constructor
  · intro hmem
    rcases List.mem_map.mp hmem with ⟨p, hp, hpk⟩
    have := (List.mem_filter.mp hp).2
    simp [hpk] at this
  · exact List.Nodup.sublist ((List.filter_sublist m).map Prod.fst) h

theorem alookup_key_mem {β : Type} {k : String} {v : β} {m : List (String × β)}
    (h : alookup k m = some v) : k ∈ m.map Prod.fst :=
  List.mem_map_of_mem Prod.fst (alookup_mem h)

/-! ### Structural equality of token sequences -/

theorem zip_self_all_eq (a : Tokens) :
    (a.zip a).all (fun p => p.1 = p.2) = true := by
  induction a with
  | nil => rfl
  | cons t ta ih => simp only [List.zip_cons_cons, List.all_cons, ih]; simp

theorem are_tokens_eq_refl (a : Tokens) : are_tokens_eq a a = true := by
  unfold are_tokens_eq
  simp [zip_self_all_eq]

theorem are_tokens_eq_iff (a b : Tokens) : are_tokens_eq a b = true ↔ a = b := by
  induction a generalizing b with
  | nil =>
    cases b <;> simp [are_tokens_eq]
  | cons t ta ih =>
    cases b with
    | nil => simp [are_tokens_eq]
    | cons u tb =>
      constructor
      · intro h
        unfold are_tokens_eq at h
        split at h
        · simp at h
        · rename_i hlen
          simp only [List.zip_cons_cons, List.all_cons, Bool.and_eq_true,
            decide_eq_true_eq] at h
          obtain ⟨htu, hall⟩ := h
          have hlen2 : ¬ ta.length ≠ tb.length := by
            simp only [List.length_cons] at hlen; omega
          have hta : are_tokens_eq ta tb = true := by
            unfold are_tokens_eq
            rw [if_neg hlen2]
            exact hall
          rw [htu, (ih tb).mp hta]
      · intro h
        rw [← h]
        exact are_tokens_eq_refl _

/-! ### Variant search and merge -/

theorem find_variant_nil (tokens : Tokens) : find_variant tokens [] = none := rfl

theorem find_variant_cons (tokens v : Tokens) (rest : List Tokens) :
    find_variant tokens (v :: rest) =
      if are_tokens_eq tokens v = true then some 0
      else (find_variant tokens rest).map (· + 1) := rfl

theorem find_variant_none_iff (tokens : Tokens) (vs : List Tokens) :
    find_variant tokens vs = none ↔ ∀ v ∈ vs, tokens ≠ v := by
  induction vs with
  | nil => simp [find_variant_nil]
  | cons v rest ih =>
    rw [find_variant_cons]
    by_cases he : are_tokens_eq tokens v = true
    · rw [if_pos he]
      have hv := (are_tokens_eq_iff tokens v).mp he
      simp [hv]
    · rw [if_neg he]
      have hne : tokens ≠ v := fun hh => he ((are_tokens_eq_iff tokens v).mpr hh)
      constructor
      · intro h w hw
        rcases List.mem_cons.mp hw with rfl | hw'
        · exact hne
        · have hfr : find_variant tokens rest = none := by
            cases hfr : find_variant tokens rest with
            | none => rfl
            | some j => rw [hfr] at h; cases h
          exact (ih.mp hfr) w hw'
      · intro h
        have : find_variant tokens rest = none :=
          ih.mpr (fun w hw => h w (List.mem_cons_of_mem _ hw))
        rw [this]
        rfl

theorem find_variant_some_get (tokens : Tokens) (vs : List Tokens) (i : Nat)
    (h : find_variant tokens vs = some i) : vs.get? i = some tokens := by
  induction vs generalizing i with
  | nil => rw [find_variant_nil] at h; cases h
  | cons v rest ih =>
    rw [find_variant_cons] at h
    by_cases he : are_tokens_eq tokens v = true
    · rw [if_pos he] at h
      cases h
      have := (are_tokens_eq_iff tokens v).mp he
      simp [this]
    · rw [if_neg he] at h
      cases hfr : find_variant tokens rest with
      | none => rw [hfr] at h; cases h
      | some j =>
        rw [hfr] at h
        have h2 : some (j + 1) = some i := h
        cases h2
        simpa using ih j hfr

theorem find_variant_append_self (tokens : Tokens) (vs : List Tokens)
    (h : find_variant tokens vs = none) :
    find_variant tokens (vs ++ [tokens]) = some vs.length := by
  induction vs with
  | nil =>
    show find_variant tokens [tokens] = some 0
    rw [find_variant_cons, if_pos (are_tokens_eq_refl tokens)]
  | cons v rest ih =>
    rw [find_variant_cons] at h
    by_cases he : are_tokens_eq tokens v = true
    · rw [if_pos he] at h; cases h
    · rw [if_neg he] at h
      have hrest : find_variant tokens rest = none := by
        cases hfr : find_variant tokens rest with
        | none => rfl
        | some j => rw [hfr] at h; cases h
      show find_variant tokens (v :: (rest ++ [tokens])) = some (v :: rest).length
      rw [find_variant_cons, if_neg he, ih hrest]
      rfl

theorem merge_type_eq_new (types : Types) (name : String) (tokens : Tokens)
    (hl : alookup name types = none) :
    merge_type types name tokens = (0, ainsert name [tokens] types) := by
  unfold merge_type
  rw [hl]

theorem merge_type_eq_found (types : Types) (name : String) (tokens : Tokens)
    (variants : List Tokens) (i : Nat)
    (hl : alookup name types = some variants) (hf : find_variant tokens variants = some i) :
    merge_type types name tokens = (i, types) := by
  unfold merge_type
  rw [hl]
  show (match find_variant tokens variants with
        | some i => (i, types)
        | none => (variants.length, ainsert name (variants ++ [tokens]) types)) = (i, types)
  rw [hf]

theorem merge_type_eq_append (types : Types) (name : String) (tokens : Tokens)
    (variants : List Tokens)
    (hl : alookup name types = some variants) (hf : find_variant tokens variants = none) :
    merge_type types name tokens =
      (variants.length, ainsert name (variants ++ [tokens]) types) := by
  unfold merge_type
  rw [hl]
  show (match find_variant tokens variants with
        | some i => (i, types)
        | none => (variants.length, ainsert name (variants ++ [tokens]) types)) =
      (variants.length, ainsert name (variants ++ [tokens]) types)
  rw [hf]

/-- The returned index of a merge selects a variant equal to the merged
content. -/
theorem merge_type_found {types : Types} {name : String} {tokens : Tokens}
    {i : Nat} {types' : Types} (h : merge_type types name tokens = (i, types')) :
    ∃ vs, alookup name types' = some vs ∧ vs.get? i = some tokens := by
  cases hl : alookup name types with
  | none =>
    rw [merge_type_eq_new types name tokens hl] at h
    cases h
    exact ⟨[tokens], alookup_ainsert_self _ _ _, rfl⟩
  | some variants =>
    cases hf : find_variant tokens variants with
    | some j =>
      rw [merge_type_eq_found types name tokens variants j hl hf] at h
      cases h
      exact ⟨variants, hl, find_variant_some_get _ _ _ hf⟩
    | none =>
      rw [merge_type_eq_append types name tokens variants hl hf] at h
      cases h
      refine ⟨variants ++ [tokens], alookup_ainsert_self _ _ _, ?_⟩
      exact List.get?_concat_length _ _

/-- Merging never removes or shortens a variant list: every stored list is
extended (possibly by nothing). -/
theorem merge_type_extends {types : Types} {name : String} {tokens : Tokens}
    {i : Nat} {types' : Types} (h : merge_type types name tokens = (i, types')) :
    ∀ n vs, alookup n types = some vs → ∃ ext, alookup n types' = some (vs ++ ext) := by
  intro n vs hvs
  cases hl : alookup name types with
  | none =>
    rw [merge_type_eq_new types name tokens hl] at h
    cases h
    by_cases hn : n = name
    · subst hn
      rw [hvs] at hl
      cases hl
    · exact ⟨[], by rw [alookup_ainsert_ne n name _ _ (fun he => hn he.symm)]; simpa using hvs⟩
  | some variants =>
    cases hf : find_variant tokens variants with
    | some j =>
      rw [merge_type_eq_found types name tokens variants j hl hf] at h
      cases h
      exact ⟨[], by simpa using hvs⟩
    | none =>
      rw [merge_type_eq_append types name tokens variants hl hf] at h
      cases h
      by_cases hn : n = name
      · subst hn
        rw [hvs] at hl
        cases hl
        exact ⟨[tokens], alookup_ainsert_self _ _ _⟩
      · exact ⟨[], by rw [alookup_ainsert_ne n name _ _ (fun he => hn he.symm)]; simpa using hvs⟩

/-- Merging content already present returns the same index and leaves the
table unchanged. -/
theorem merge_type_idem {types : Types} {name : String} {tokens : Tokens}
    {i : Nat} {types' : Types} (h : merge_type types name tokens = (i, types')) :
    merge_type types' name tokens = (i, types') := by
  cases hl : alookup name types with
  | none =>
    rw [merge_type_eq_new types name tokens hl] at h
    cases h
    have hone : find_variant tokens [tokens] = some 0 := by
      rw [find_variant_cons, if_pos (are_tokens_eq_refl tokens)]
    exact merge_type_eq_found _ name tokens [tokens] 0 (alookup_ainsert_self _ _ _) hone
  | some variants =>
    cases hf : find_variant tokens variants with
    | some j =>
      rw [merge_type_eq_found types name tokens variants j hl hf] at h
      cases h
      exact merge_type_eq_found types name tokens variants _ hl hf
    | none =>
      rw [merge_type_eq_append types name tokens variants hl hf] at h
      cases h
      exact merge_type_eq_found _ name tokens (variants ++ [tokens]) variants.length
        (alookup_ainsert_self _ _ _) (find_variant_append_self _ _ hf)

/-- Merging preserves the no-structurally-equal-variants invariant. -/
theorem merge_type_nodup {types : Types} {name : String} {tokens : Tokens}
    {i : Nat} {types' : Types} (h : merge_type types name tokens = (i, types'))
    (hnd : ∀ n vs, alookup n types = some vs → vs.Nodup) :
    ∀ n vs, alookup n types' = some vs → vs.Nodup := by
  intro n vs hvs
  cases hl : alookup name types with
  | none =>
    rw [merge_type_eq_new types name tokens hl] at h
    cases h
    by_cases hn : n = name
    · subst hn
      rw [alookup_ainsert_self] at hvs
      cases hvs
      simp
    · rw [alookup_ainsert_ne n name _ _ (fun he => hn he.symm)] at hvs
      exact hnd n vs hvs
  | some variants =>
    cases hf : find_variant tokens variants with
    | some j =>
      rw [merge_type_eq_found types name tokens variants j hl hf] at h
      cases h
      exact hnd n vs hvs
    | none =>
      rw [merge_type_eq_append types name tokens variants hl hf] at h
      cases h
      by_cases hn : n = name
      · subst hn
        rw [alookup_ainsert_self] at hvs
        cases hvs
        have hmem : tokens ∉ variants := by
          intro hmem
          exact ((find_variant_none_iff tokens variants).mp hf tokens hmem) rfl
        rw [← List.concat_eq_append]
        exact List.Nodup.concat hmem (hnd _ variants hl)
      · rw [alookup_ainsert_ne n name _ _ (fun he => hn he.symm)] at hvs
        exact hnd n vs hvs

/-! ### Change recording -/

theorem record_any_iff (tokens other_tokens : Tokens) (variants : List (Tokens × Tokens)) :
    (variants.any (fun p => are_tokens_eq tokens p.1 && are_tokens_eq other_tokens p.2)
      = true) ↔ (tokens, other_tokens) ∈ variants := by
  rw [List.any_eq_true]
  constructor
  · rintro ⟨p, hp, hpe⟩
    rw [Bool.and_eq_true, are_tokens_eq_iff, are_tokens_eq_iff] at hpe
    obtain ⟨h1, h2⟩ := hpe
    rcases p with ⟨p1, p2⟩
    simp only at h1 h2
    rw [h1, h2]
    exact hp
  · intro hp
    exact ⟨(tokens, other_tokens), hp, by simp [are_tokens_eq_refl]⟩

theorem record_eq_new (name : String) (tokens other_tokens : Tokens)
    (changes : TypeChanges) (hl : alookup name changes = none) :
    record_type_change name tokens other_tokens changes =
      ainsert name [(tokens, other_tokens)] changes := by
  unfold record_type_change
  rw [hl]

theorem record_eq_mem (name : String) (tokens other_tokens : Tokens)
    (changes : TypeChanges) (variants : List (Tokens × Tokens))
    (hl : alookup name changes = some variants)
    (hmem : (variants.any
      (fun p => are_tokens_eq tokens p.1 && are_tokens_eq other_tokens p.2)) = true) :
    record_type_change name tokens other_tokens changes = changes := by
  unfold record_type_change
  rw [hl]
  show (if (variants.any
      (fun p => are_tokens_eq tokens p.1 && are_tokens_eq other_tokens p.2)) = true
    then changes else ainsert name (variants ++ [(tokens, other_tokens)]) changes) = changes
  rw [if_pos hmem]

theorem record_eq_append (name : String) (tokens other_tokens : Tokens)
    (changes : TypeChanges) (variants : List (Tokens × Tokens))
    (hl : alookup name changes = some variants)
    (hmem : (variants.any
      (fun p => are_tokens_eq tokens p.1 && are_tokens_eq other_tokens p.2)) = false) :
    record_type_change name tokens other_tokens changes =
      ainsert name (variants ++ [(tokens, other_tokens)]) changes := by
  unfold record_type_change
  rw [hl]
  show (if (variants.any
      (fun p => are_tokens_eq tokens p.1 && are_tokens_eq other_tokens p.2)) = true
    then changes else ainsert name (variants ++ [(tokens, other_tokens)]) changes) =
    ainsert name (variants ++ [(tokens, other_tokens)]) changes
  rw [hmem]
  simp

theorem lookupCD_record_self (name : String) (tokens other_tokens : Tokens)
    (changes : TypeChanges) :
    lookupCD (record_type_change name tokens other_tokens changes) name =
      (if (tokens, other_tokens) ∈ lookupCD changes name then lookupCD changes name
       else lookupCD changes name ++ [(tokens, other_tokens)]) := by
  cases hl : alookup name changes with
  | none =>
    rw [record_eq_new name tokens other_tokens changes hl]
    have hcd : lookupCD changes name = [] := by simp [lookupCD, hl]
    rw [hcd]
    simp [lookupCD, alookup_ainsert_self]
  | some variants =>
    have hcd : lookupCD changes name = variants := by simp [lookupCD, hl]
    by_cases hmem : (tokens, other_tokens) ∈ variants
    · rw [record_eq_mem name tokens other_tokens changes variants hl
        ((record_any_iff _ _ _).mpr hmem)]
      rw [hcd, if_pos hmem]
    · have hf : (variants.any
          (fun p => are_tokens_eq tokens p.1 && are_tokens_eq other_tokens p.2)) = false :=
        Bool.eq_false_iff.mpr (fun hh => hmem ((record_any_iff _ _ _).mp hh))
      rw [record_eq_append name tokens other_tokens changes variants hl hf]
      rw [hcd, if_neg hmem]
      simp [lookupCD, alookup_ainsert_self]

theorem lookupCD_record_other {name m : String} (tokens other_tokens : Tokens)
    (changes : TypeChanges) (h : m ≠ name) :
    lookupCD (record_type_change name tokens other_tokens changes) m =
      lookupCD changes m := by
  cases hl : alookup name changes with
  | none =>
    rw [record_eq_new name tokens other_tokens changes hl]
    simp [lookupCD, alookup_ainsert_ne m name _ _ (Ne.symm h)]
  | some variants =>
    cases hany : (variants.any
        (fun p => are_tokens_eq tokens p.1 && are_tokens_eq other_tokens p.2)) with
    | true =>
      rw [record_eq_mem name tokens other_tokens changes variants hl hany]
    | false =>
      rw [record_eq_append name tokens other_tokens changes variants hl hany]
      simp [lookupCD, alookup_ainsert_ne m name _ _ (Ne.symm h)]

theorem record_mem_self (name : String) (tokens other_tokens : Tokens)
    (changes : TypeChanges) :
    (tokens, other_tokens) ∈
      lookupCD (record_type_change name tokens other_tokens changes) name := by
  rw [lookupCD_record_self]
  split
  · assumption
  · simp

theorem record_mono {name m : String} {tokens other_tokens : Tokens}
    {changes : TypeChanges} {pr : Tokens × Tokens} (h : pr ∈ lookupCD changes m) :
    pr ∈ lookupCD (record_type_change name tokens other_tokens changes) m := by
  by_cases hm : m = name
  · subst hm
    rw [lookupCD_record_self]
    split
    · exact h
    · exact List.mem_append_left _ h
  · rw [lookupCD_record_other _ _ _ hm]
    exact h

theorem record_nodup {name : String} {tokens other_tokens : Tokens}
    {changes : TypeChanges} (h : ∀ m, (lookupCD changes m).Nodup) :
    ∀ m, (lookupCD (record_type_change name tokens other_tokens changes) m).Nodup := by
  intro m
  by_cases hm : m = name
  · subst hm
    rw [lookupCD_record_self]
    split
    · exact h m
    · rename_i hmem
      rw [← List.concat_eq_append]
      exact List.Nodup.concat hmem (h m)
  · rw [lookupCD_record_other _ _ _ hm]
    exact h m

/-! ### The recursion measure -/

theorem filter_length_mono {l : List String} {p q : String → Bool}
    (h : ∀ x, q x = true → p x = true) :
    (l.filter q).length ≤ (l.filter p).length := by
  induction l with
  | nil => simp
  | cons x rest ih =>
    rw [List.filter_cons, List.filter_cons]
    by_cases hq : q x = true
    · rw [if_pos hq, if_pos (h x hq)]
      simpa using ih
    · rw [if_neg (by simpa using hq)]
      split
      · exact Nat.le_succ_of_le ih
      · exact ih

theorem remCount_mono_subset {records : FileRecords} {p p' : List String}
    (h : p ⊆ p') : remCount records p' ≤ remCount records p := by
  unfold remCount
  apply filter_length_mono
  intro x hx
  simp only [decide_eq_true_eq] at hx ⊢
  exact fun hmem => hx (h hmem)

theorem remCount_le_length (records : FileRecords) (processed : List String) :
    remCount records processed ≤ records.length := by
  unfold remCount
  calc ((records.map Prod.fst).filter _).length
      ≤ (records.map Prod.fst).length := List.length_filter_le _ _
    _ = records.length := List.length_map _ _

theorem filter_notmem_cons_lt (keys : List String) (name : String) (processed : List String)
    (hk : name ∈ keys) (hp : name ∉ processed) :
    (keys.filter (fun k => k ∉ name :: processed)).length <
      (keys.filter (fun k => k ∉ processed)).length := by
  induction keys with
  | nil => simp at hk
  | cons x rest ih =>
    rw [List.filter_cons, List.filter_cons]
    by_cases hx : x = name
    · subst hx
      rw [if_neg (by simp), if_pos (by simpa using hp)]
      have : (rest.filter (fun k => k ∉ x :: processed)).length ≤
          (rest.filter (fun k => k ∉ processed)).length := by
        apply filter_length_mono
        intro y hy
        simp only [decide_eq_true_eq, List.mem_cons, not_or] at hy ⊢
        exact hy.2
      rw [List.length_cons]
      omega
    · have hk' : name ∈ rest := by
        rcases List.mem_cons.mp hk with h1 | h2
        · exact absurd h1.symm hx
        · exact h2
      by_cases hxp : x ∈ processed
      · rw [if_neg (by simp [hxp]), if_neg (by simpa using hxp)]
        exact ih hk'
      · rw [if_pos (by simp [hx, hxp]), if_pos (by simpa using hxp)]
        simpa using ih hk'

theorem remCount_insert_lt {records : FileRecords} {name : String} {processed : List String}
    (hk : name ∈ records.map Prod.fst) (hp : name ∉ processed) :
    remCount records (name :: processed) < remCount records processed :=
  filter_notmem_cons_lt _ _ _ hk hp

/-! ### Loader lemmas -/

theorem get?_some_lt {α : Type} {l : List α} {i : Nat} {x : α}
    (h : l.get? i = some x) : i < l.length := by
  induction l generalizing i with
  | nil => cases h
  | cons y rest ih =>
    cases i with
    | zero => simp
    | succ j =>
      have hj : rest.get? j = some x := h
      have := ih hj
      simp only [List.length_cons]
      omega

theorem exportUpdate_none (name : String) (file_idx : Nat) (exports : Exports)
    (hch : name.data.get? 1 = none) :
    exportUpdate name file_idx exports = exports := by
  unfold exportUpdate
  rw [hch]

theorem exportUpdate_hash (name : String) (file_idx : Nat) (exports : Exports)
    (hch : name.data.get? 1 = some '#') :
    exportUpdate name file_idx exports = exports := by
  unfold exportUpdate
  rw [hch]
  show (if '#' ≠ '#' then ainsert name file_idx exports else exports) = exports
  rw [if_neg (by simp)]

theorem exportUpdate_ne {ch : Char} (name : String) (file_idx : Nat) (exports : Exports)
    (hch : name.data.get? 1 = some ch) (hne : ch ≠ '#') :
    exportUpdate name file_idx exports = ainsert name file_idx exports := by
  unfold exportUpdate
  rw [hch]
  show (if ch ≠ '#' then ainsert name file_idx exports else exports) =
    ainsert name file_idx exports
  rw [if_pos hne]

theorem processLine_nil (c : SymCorpus) (records : FileRecords) :
    processLine c records [] = (c, records) := rfl

theorem processLine_cons (c : SymCorpus) (records : FileRecords)
    (name : String) (rest : List String) :
    processLine c records (name :: rest) =
      ({ c with types := (merge_type c.types name (rest.map tokenizeWord)).2,
                exports := exportUpdate name c.files.length c.exports },
       ainsert name (merge_type c.types name (rest.map tokenizeWord)).1 records) := rfl

theorem processLine_files (c : SymCorpus) (records : FileRecords) (words : List String) :
    (processLine c records words).1.files = c.files := by
  cases words <;> rfl

theorem processLine_types_wf_old (c : SymCorpus) (records : FileRecords)
    (words : List String) (recs : FileRecords) (h : types_wf c.types recs) :
    types_wf (processLine c records words).1.types recs := by
  cases words with
  | nil => exact h
  | cons name rest =>
    rw [processLine_cons]
    intro n idx hidx
    obtain ⟨vs, hvs, hlt⟩ := h n idx hidx
    obtain ⟨ext, hext⟩ :=
      merge_type_extends (rfl : merge_type c.types name (rest.map tokenizeWord) =
        ((merge_type c.types name (rest.map tokenizeWord)).1,
         (merge_type c.types name (rest.map tokenizeWord)).2)) n vs hvs
    refine ⟨vs ++ ext, hext, ?_⟩
    rw [List.length_append]
    omega

theorem processLine_types_wf_new (c : SymCorpus) (records : FileRecords)
    (words : List String) (h : types_wf c.types records) :
    types_wf (processLine c records words).1.types (processLine c records words).2 := by
  cases words with
  | nil => exact h
  | cons name rest =>
    rw [processLine_cons]
    intro n idx hidx
    by_cases hn : n = name
    · subst hn
      rw [alookup_ainsert_self] at hidx
      cases hidx
      obtain ⟨vs, hvs, hget⟩ :=
        merge_type_found (rfl : merge_type c.types n (rest.map tokenizeWord) =
          ((merge_type c.types n (rest.map tokenizeWord)).1,
           (merge_type c.types n (rest.map tokenizeWord)).2))
      exact ⟨vs, hvs, get?_some_lt hget⟩
    · rw [alookup_ainsert_ne n name _ _ (fun he => hn he.symm)] at hidx
      obtain ⟨vs, hvs, hlt⟩ := h n idx hidx
      obtain ⟨ext, hext⟩ :=
        merge_type_extends (rfl : merge_type c.types name (rest.map tokenizeWord) =
          ((merge_type c.types name (rest.map tokenizeWord)).1,
           (merge_type c.types name (rest.map tokenizeWord)).2)) n vs hvs
      refine ⟨vs ++ ext, hext, ?_⟩
      rw [List.length_append]
      omega

theorem load_lines_cons (c : SymCorpus) (records : FileRecords)
    (l : List String) (rest : List (List String)) :
    load_lines c records (l :: rest) =
      load_lines (processLine c records l).1 (processLine c records l).2 rest := rfl

theorem load_lines_inv (lines : List (List String)) :
    ∀ c records,
      (load_lines c records lines).1.files = c.files ∧
      (∀ recs, types_wf c.types recs → types_wf (load_lines c records lines).1.types recs) ∧
      (types_wf c.types records →
        types_wf (load_lines c records lines).1.types (load_lines c records lines).2) := by
  induction lines with
  | nil => exact fun c records => ⟨rfl, fun recs h => h, fun h => h⟩
  | cons l rest ih =>
    intro c records
    obtain ⟨ihf, ihold, ihnew⟩ := ih (processLine c records l).1 (processLine c records l).2
    rw [load_lines_cons]
    refine ⟨?_, ?_, ?_⟩
    · rw [ihf, processLine_files]
    · intro recs h
      exact ihold recs (processLine_types_wf_old c records l recs h)
    · intro h
      exact ihnew (processLine_types_wf_new c records l h)

theorem types_wf_empty_records (types : Types) : types_wf types [] := by
  intro n idx h
  cases h

theorem load_file_wf {c : SymCorpus} (path : String) (lines : List (List String))
    (h : corpus_wf c) : corpus_wf (load_file c path lines) := by
  obtain ⟨hf, hold, hnew⟩ := load_lines_inv lines c []
  intro file hfile
  unfold load_file at hfile ⊢
  simp only at hfile ⊢
  rcases List.mem_append.mp hfile with hmem | hmem
  · rw [hf] at hmem
    exact hold file.records (h file hmem)
  · have : file = ⟨path, (load_lines c [] lines).2⟩ := by
      simpa using hmem
    subst this
    exact hnew (types_wf_empty_records _)

theorem load_files_fold_wf (inputs : List (String × List (List String))) :
    ∀ c, corpus_wf c →
      corpus_wf (inputs.foldl (fun c i => load_file c i.1 i.2) c) := by
  induction inputs with
  | nil => exact fun c h => h
  | cons i rest ih =>
    intro c h
    exact ih _ (load_file_wf i.1 i.2 h)

theorem emptyCorpus_wf : corpus_wf emptyCorpus := by
  intro file hfile
  cases hfile

theorem load_files_wf (inputs : List (String × List (List String))) :
    corpus_wf (load_files inputs) :=
  load_files_fold_wf inputs emptyCorpus emptyCorpus_wf

theorem get_type_tokens_isSome_of_wf {c : SymCorpus} {file : SymFile} {name : String}
    {idx : Nat} (hwf : corpus_wf c) (hfile : file ∈ c.files)
    (hidx : alookup name file.records = some idx) :
    (get_type_tokens c file name).isSome := by
  obtain ⟨vs, hvs, hlt⟩ := hwf file hfile name idx hidx
  unfold get_type_tokens
  rw [hidx]
  show (match alookup name c.types with
        | some variants => variants.get? idx
        | none => none).isSome
  rw [hvs]
  show (vs.get? idx).isSome
  rw [List.get?_eq_get hlt]
  rfl

theorem exportUpdate_keys_nodup (name : String) (file_idx : Nat) (exports : Exports)
    (h : (exports.map Prod.fst).Nodup) :
    ((exportUpdate name file_idx exports).map Prod.fst).Nodup := by
  cases hch : name.data.get? 1 with
  | none => rw [exportUpdate_none _ _ _ hch]; exact h
  | some ch =>
    by_cases hne : ch = '#'
    · subst hne
      rw [exportUpdate_hash _ _ _ hch]
      exact h
    · rw [exportUpdate_ne _ _ _ hch hne]
      exact ainsert_keys_nodup _ _ _ h

theorem processLine_exports_nodup (c : SymCorpus) (records : FileRecords)
    (words : List String) (h : (c.exports.map Prod.fst).Nodup) :
    (((processLine c records words).1.exports).map Prod.fst).Nodup := by
  cases words with
  | nil => exact h
  | cons name rest =>
    rw [processLine_cons]
    exact exportUpdate_keys_nodup _ _ _ h

theorem load_lines_exports_nodup (lines : List (List String)) :
    ∀ c records, (c.exports.map Prod.fst).Nodup →
      (((load_lines c records lines).1.exports).map Prod.fst).Nodup := by
  induction lines with
  | nil => exact fun c records h => h
  | cons l rest ih =>
    intro c records h
    rw [load_lines_cons]
    exact ih _ _ (processLine_exports_nodup c records l h)

theorem load_file_exports_nodup {c : SymCorpus} (path : String)
    (lines : List (List String)) (h : (c.exports.map Prod.fst).Nodup) :
    (((load_file c path lines).exports).map Prod.fst).Nodup := by
  unfold load_file
  exact load_lines_exports_nodup lines c [] h

theorem load_files_exports_nodup (inputs : List (String × List (List String))) :
    (((load_files inputs).exports).map Prod.fst).Nodup := by
  have main : ∀ (ins : List (String × List (List String))) (c : SymCorpus),
      (c.exports.map Prod.fst).Nodup →
      (((ins.foldl (fun c i => load_file c i.1 i.2) c).exports).map Prod.fst).Nodup := by
    intro ins
    induction ins with
    | nil => exact fun c h => h
    | cons i rest ih =>
      intro c h
      exact ih _ (load_file_exports_nodup i.1 i.2 h)
  exact main inputs emptyCorpus (by simp [emptyCorpus])

/-! ### Comparator equations -/

theorem ls_ref_eq (cmp : String → List String → TypeChanges →
      CRes (List String × TypeChanges))
    (ref_name : String) (processed : List String) (changes : TypeChanges) :
    loop_step cmp (.TypeRef ref_name) (.TypeRef ref_name) processed changes =
      (match cmp ref_name processed changes with
       | .ok (p, c) => .ok (true, p, c)
       | .panic => .panic
       | .fuelOut => .fuelOut) := by
  unfold loop_step
  show (if ref_name = ref_name then
      match cmp ref_name processed changes with
      | CRes.ok (p, c) => (CRes.ok (true, p, c) : CRes (Bool × List String × TypeChanges))
      | CRes.panic => CRes.panic
      | CRes.fuelOut => CRes.fuelOut
    else CRes.ok (false, processed, changes)) =
    (match cmp ref_name processed changes with
     | CRes.ok (p, c) => CRes.ok (true, p, c)
     | CRes.panic => CRes.panic
     | CRes.fuelOut => CRes.fuelOut)
  rw [if_pos rfl]

theorem ls_ref_ne (cmp : String → List String → TypeChanges →
      CRes (List String × TypeChanges))
    (ref_name other_ref_name : String) (processed : List String) (changes : TypeChanges)
    (h : ref_name ≠ other_ref_name) :
    loop_step cmp (.TypeRef ref_name) (.TypeRef other_ref_name) processed changes =
      .ok (false, processed, changes) := by
  unfold loop_step
  show (if ref_name = other_ref_name then
      match cmp ref_name processed changes with
      | CRes.ok (p, c) => (CRes.ok (true, p, c) : CRes (Bool × List String × TypeChanges))
      | CRes.panic => CRes.panic
      | CRes.fuelOut => CRes.fuelOut
    else CRes.ok (false, processed, changes)) = CRes.ok (false, processed, changes)
  rw [if_neg h]

theorem ls_atom (cmp : String → List String → TypeChanges →
      CRes (List String × TypeChanges))
    (word other_word : String) (processed : List String) (changes : TypeChanges) :
    loop_step cmp (.Atom word) (.Atom other_word) processed changes =
      .ok ((word = other_word : Bool), processed, changes) := rfl

theorem ls_mixed_ra (cmp : String → List String → TypeChanges →
      CRes (List String × TypeChanges))
    (ref_name word : String) (processed : List String) (changes : TypeChanges) :
    loop_step cmp (.TypeRef ref_name) (.Atom word) processed changes =
      .ok (false, processed, changes) := rfl

theorem ls_mixed_ar (cmp : String → List String → TypeChanges →
      CRes (List String × TypeChanges))
    (word ref_name : String) (processed : List String) (changes : TypeChanges) :
    loop_step cmp (.Atom word) (.TypeRef ref_name) processed changes =
      .ok (false, processed, changes) := rfl

theorem cl_nil (cmp : String → List String → TypeChanges →
      CRes (List String × TypeChanges))
    (processed : List String) (changes : TypeChanges) :
    compare_loop cmp [] processed changes = .ok (true, processed, changes) := rfl

theorem cl_cons (cmp : String → List String → TypeChanges →
      CRes (List String × TypeChanges))
    (token other_token : Token) (rest : List (Token × Token))
    (processed : List String) (changes : TypeChanges) :
    compare_loop cmp ((token, other_token) :: rest) processed changes =
      (match loop_step cmp token other_token processed changes with
       | .ok (eq1, p, c) =>
         (match compare_loop cmp rest p c with
          | .ok (eqr, p2, c2) => .ok (eq1 && eqr, p2, c2)
          | .panic => .panic
          | .fuelOut => .fuelOut)
       | .panic => .panic
       | .fuelOut => .fuelOut) := rfl

theorem ct_zero (a b : SymCorpus) (file other_file : SymFile) (name : String)
    (processed : List String) (changes : TypeChanges) :
    compare_types 0 a b file other_file name processed changes = .fuelOut := rfl

theorem ct_succ_mem (fuel : Nat) (a b : SymCorpus) (file other_file : SymFile)
    (name : String) (processed : List String) (changes : TypeChanges)
    (h : name ∈ processed) :
    compare_types (fuel + 1) a b file other_file name processed changes =
      .ok (processed, changes) := by
  unfold compare_types
  rw [if_pos h]

theorem ct_succ_panic (fuel : Nat) (a b : SymCorpus) (file other_file : SymFile)
    (name : String) (processed : List String) (changes : TypeChanges)
    (hmem : name ∉ processed)
    (h : get_type_tokens a file name = none ∨ get_type_tokens b other_file name = none) :
    compare_types (fuel + 1) a b file other_file name processed changes = .panic := by
  unfold compare_types
  rw [if_neg hmem]
  cases hts : get_type_tokens a file name with
  | none =>
    cases hots : get_type_tokens b other_file name <;> rfl
  | some tokens =>
    cases hots : get_type_tokens b other_file name with
    | none => rfl
    | some other_tokens =>
      rcases h with h | h
      · rw [hts] at h; cases h
      · rw [hots] at h; cases h

theorem ct_succ_run (fuel : Nat) (a b : SymCorpus) (file other_file : SymFile)
    (name : String) (processed : List String) (changes : TypeChanges)
    (tokens other_tokens : Tokens) (hmem : name ∉ processed)
    (hts : get_type_tokens a file name = some tokens)
    (hots : get_type_tokens b other_file name = some other_tokens) :
    compare_types (fuel + 1) a b file other_file name processed changes =
      (match compare_loop (fun r p c => compare_types fuel a b file other_file r p c)
          (tokens.zip other_tokens) (name :: processed) changes with
       | .ok (all_eq, p, c) =>
         .ok (p, if ((tokens.length = other_tokens.length : Bool) && all_eq) = true then c
                 else record_type_change name tokens other_tokens c)
       | .panic => .panic
       | .fuelOut => .fuelOut) := by
  conv_lhs => rw [compare_types]
  rw [if_neg hmem, hts, hots]

/-! ### Per-position verdicts -/

theorem pairMatch_iff (token other_token : Token) :
    pairMatch (token, other_token) = true ↔ token = other_token := by
  cases token <;> cases other_token <;> simp [pairMatch]

theorem all_pairMatch_iff (tokens other_tokens : Tokens)
    (hlen : tokens.length = other_tokens.length) :
    ((tokens.zip other_tokens).all pairMatch = true) ↔ tokens = other_tokens := by
  induction tokens generalizing other_tokens with
  | nil =>
    cases other_tokens with
    | nil => simp
    | cons u tb => cases hlen
  | cons t ta ih =>
    cases other_tokens with
    | nil => cases hlen
    | cons u tb =>
      simp only [List.zip_cons_cons, List.all_cons, Bool.and_eq_true]
      rw [pairMatch_iff]
      simp only [List.length_cons] at hlen
      rw [ih tb (by omega)]
      constructor
      · rintro ⟨rfl, rfl⟩; rfl
      · intro h
        cases h
        exact ⟨rfl, rfl⟩

theorem is_equal_verdict_iff (tokens other_tokens : Tokens) :
    is_equal_verdict tokens other_tokens = true ↔ tokens = other_tokens := by
  unfold is_equal_verdict
  rw [Bool.and_eq_true, decide_eq_true_eq]
  constructor
  · rintro ⟨hlen, hall⟩
    exact (all_pairMatch_iff _ _ hlen).mp hall
  · intro h
    cases h
    exact ⟨rfl, (all_pairMatch_iff _ _ rfl).mpr rfl⟩

/-! ### The call invariant -/

theorem stepInv_refl (a b : SymCorpus) (file other_file : SymFile)
    (processed : List String) (changes : TypeChanges) :
    stepInv a b file other_file processed changes processed changes := by
  refine ⟨fun x hx => hx, fun m hm => Or.inl hm, fun m pr h => h,
    fun m _ => rfl, fun h m => h m, fun h => h⟩

theorem visitedOK_mono {a b : SymCorpus} {file other_file : SymFile}
    {p1 p2 : List String} {c1 c2 : TypeChanges} {m : String}
    (h : visitedOK a b file other_file p1 c1 m)
    (hp : p1 ⊆ p2) (hc : ∀ n pr, pr ∈ lookupCD c1 n → pr ∈ lookupCD c2 n) :
    visitedOK a b file other_file p2 c2 m := by
  obtain ⟨tm, otm, h1, h2, hrefs, hrec⟩ := h
  exact ⟨tm, otm, h1, h2, fun r hr => hp (hrefs r hr), fun hne => hc m _ (hrec hne)⟩

theorem stepInv_trans {a b : SymCorpus} {file other_file : SymFile}
    {s0 s1 s2 : List String} {c0 c1 c2 : TypeChanges}
    (h01 : stepInv a b file other_file s0 c0 s1 c1)
    (h12 : stepInv a b file other_file s1 c1 s2 c2) :
    stepInv a b file other_file s0 c0 s2 c2 := by
  obtain ⟨hs01, hcl01, hmono01, hpres01, hnd01, hndp01⟩ := h01
  obtain ⟨hs12, hcl12, hmono12, hpres12, hnd12, hndp12⟩ := h12
  refine ⟨fun x hx => hs12 (hs01 hx), ?_, fun m pr h => hmono12 m pr (hmono01 m pr h),
    ?_, fun h m => hnd12 (hnd01 h) m, fun h => hndp12 (hndp01 h)⟩
  · intro m hm
    rcases hcl12 m hm with hm1 | hvk
    · rcases hcl01 m hm1 with hm0 | hvk
      · exact Or.inl hm0
      · exact Or.inr (visitedOK_mono hvk hs12 hmono12)
    · exact Or.inr hvk
  · intro m hm
    rw [hpres12 m (hs01 hm), hpres01 m hm]

/-- The invariant established by one position of the loop. -/
theorem loop_step_inv {a b : SymCorpus} {file other_file : SymFile}
    {cmp : String → List String → TypeChanges → CRes (List String × TypeChanges)}
    (hcmp : CmpInv a b file other_file cmp)
    {token other_token : Token} {processed : List String} {changes : TypeChanges}
    {eq1 : Bool} {p1 : List String} {c1 : TypeChanges}
    (hstep : loop_step cmp token other_token processed changes = .ok (eq1, p1, c1)) :
    stepInv a b file other_file processed changes p1 c1 ∧
    eq1 = pairMatch (token, other_token) ∧
    (∀ r, token = .TypeRef r → other_token = .TypeRef r → r ∈ p1) := by
  cases token with
  | TypeRef ref_name =>
    cases other_token with
    | TypeRef other_ref_name =>
      by_cases hr : ref_name = other_ref_name
      · subst hr
        rw [ls_ref_eq] at hstep
        cases hc : cmp ref_name processed changes with
        | panic => rw [hc] at hstep; cases hstep
        | fuelOut => rw [hc] at hstep; cases hstep
        | ok pc =>
          rcases pc with ⟨p, c⟩
          rw [hc] at hstep
          cases hstep
          obtain ⟨hsi, hmem⟩ := hcmp ref_name processed changes p1 c1 hc
          refine ⟨hsi, by simp [pairMatch], ?_⟩
          rintro r hr1 hr2
          cases hr1
          exact hmem
      · rw [ls_ref_ne cmp _ _ _ _ hr] at hstep
        cases hstep
        refine ⟨stepInv_refl _ _ _ _ _ _, by simp [pairMatch, hr], ?_⟩
        rintro r hr1 hr2
        cases hr1
        cases hr2
        exact absurd rfl hr
    | Atom other_word =>
      rw [ls_mixed_ra] at hstep
      cases hstep
      exact ⟨stepInv_refl _ _ _ _ _ _, by simp [pairMatch], by rintro r hr1 ⟨⟩⟩
  | Atom word =>
    cases other_token with
    | TypeRef other_ref_name =>
      rw [ls_mixed_ar] at hstep
      cases hstep
      exact ⟨stepInv_refl _ _ _ _ _ _, by simp [pairMatch], by rintro r ⟨⟩⟩
    | Atom other_word =>
      rw [ls_atom] at hstep
      cases hstep
      exact ⟨stepInv_refl _ _ _ _ _ _, by simp [pairMatch], by rintro r ⟨⟩⟩

/-- The invariant established by the whole loop, together with the visit of
every same-name reference pair and the characterisation of the verdict. -/
theorem compare_loop_inv {a b : SymCorpus} {file other_file : SymFile}
    {cmp : String → List String → TypeChanges → CRes (List String × TypeChanges)}
    (hcmp : CmpInv a b file other_file cmp) :
    ∀ (pairs : List (Token × Token)) (processed : List String) (changes : TypeChanges)
      (bool : Bool) (p' : List String) (c' : TypeChanges),
      compare_loop cmp pairs processed changes = .ok (bool, p', c') →
      stepInv a b file other_file processed changes p' c' ∧
      (∀ r, (Token.TypeRef r, Token.TypeRef r) ∈ pairs → r ∈ p') ∧
      bool = pairs.all pairMatch := by
  intro pairs
  induction pairs with
  | nil =>
    intro processed changes bool p' c' h
    rw [cl_nil] at h
    cases h
    exact ⟨stepInv_refl _ _ _ _ _ _, by rintro r ⟨⟩, rfl⟩
  | cons pr rest ih =>
    rcases pr with ⟨token, other_token⟩
    intro processed changes bool p' c' h
    rw [cl_cons] at h
    cases hstep : loop_step cmp token other_token processed changes with
    | panic => rw [hstep] at h; cases h
    | fuelOut => rw [hstep] at h; cases h
    | ok tpl =>
      rcases tpl with ⟨eq1, p1, c1⟩
      rw [hstep] at h
      have h2 : (fun (res : CRes (Bool × List String × TypeChanges)) => match res with
          | CRes.ok (eqr, p2, c2) => CRes.ok (eq1 && eqr, p2, c2)
          | CRes.panic => CRes.panic
          | CRes.fuelOut => CRes.fuelOut) (compare_loop cmp rest p1 c1) =
          CRes.ok (bool, p', c') := h
      clear h
      cases hrest : compare_loop cmp rest p1 c1 with
      | panic => rw [hrest] at h2; cases h2
      | fuelOut => rw [hrest] at h2; cases h2
      | ok tpl2 =>
        rcases tpl2 with ⟨eqr, p2, c2⟩
        rw [hrest] at h2
        simp only [CRes.ok.injEq, Prod.mk.injEq] at h2
        obtain ⟨hb, hp, hc⟩ := h2
        subst hb
        subst hp
        subst hc
        obtain ⟨hsi1, heq1, href1⟩ := loop_step_inv hcmp hstep
        obtain ⟨hsi2, href2, heq2⟩ := ih p1 c1 eqr p2 c2 hrest
        refine ⟨stepInv_trans hsi1 hsi2, ?_, ?_⟩
        · intro r hr
          rcases List.mem_cons.mp hr with hr | hr
          · have h1 : token = Token.TypeRef r := congrArg Prod.fst hr.symm
            have h2 : other_token = Token.TypeRef r := congrArg Prod.snd hr.symm
            exact hsi2.1 (href1 r h1 h2)
          · exact href2 r hr
        · rw [List.all_cons, heq1, heq2]

/-- `compare_types` satisfies the call invariant at every fuel. -/
theorem compare_types_inv (a b : SymCorpus) (file other_file : SymFile) :
    ∀ fuel, CmpInv a b file other_file
      (fun r p c => compare_types fuel a b file other_file r p c) := by
  intro fuel
  induction fuel with
  | zero =>
    intro r p c p' c' h
    have h' : compare_types 0 a b file other_file r p c = CRes.ok (p', c') := h
    rw [ct_zero] at h'
    cases h'
  | succ fuel ih =>
    intro name processed changes p' c' hraw
    have h : compare_types (fuel + 1) a b file other_file name processed changes =
      CRes.ok (p', c') := hraw
    clear hraw
    by_cases hmem : name ∈ processed
    · rw [ct_succ_mem fuel a b file other_file name processed changes hmem] at h
      cases h
      exact ⟨stepInv_refl _ _ _ _ _ _, hmem⟩
    · cases hts : get_type_tokens a file name with
      | none =>
        rw [ct_succ_panic fuel a b file other_file name processed changes hmem
          (Or.inl hts)] at h
        cases h
      | some tokens =>
        cases hots : get_type_tokens b other_file name with
        | none =>
          rw [ct_succ_panic fuel a b file other_file name processed changes hmem
            (Or.inr hots)] at h
          cases h
        | some other_tokens =>
          rw [ct_succ_run fuel a b file other_file name processed changes tokens
            other_tokens hmem hts hots] at h
          cases hloop : compare_loop
              (fun r p c => compare_types fuel a b file other_file r p c)
              (tokens.zip other_tokens) (name :: processed) changes with
          | panic => rw [hloop] at h; cases h
          | fuelOut => rw [hloop] at h; cases h
          | ok tpl =>
            rcases tpl with ⟨all_eq, p, cc⟩
            rw [hloop] at h
            simp only [CRes.ok.injEq, Prod.mk.injEq] at h
            obtain ⟨hp, hc⟩ := h
            subst hp
            subst hc
            obtain ⟨hsi, hrefs, hbool⟩ :=
              compare_loop_inv ih (tokens.zip other_tokens) (name :: processed) changes
                all_eq p cc hloop
            obtain ⟨hsub, hclose, hmono, hpres, hndc, hndp⟩ := hsi
            have hname_p : name ∈ p := hsub (List.mem_cons_self _ _)
            -- whether the record branch fires
            set c' := if ((tokens.length = other_tokens.length : Bool) && all_eq) = true
              then cc else record_type_change name tokens other_tokens cc with hc'
            have hcc_sub : ∀ m pr, pr ∈ lookupCD cc m → pr ∈ lookupCD c' m := by
              intro m pr hpr
              rw [hc']
              split
              · exact hpr
              · exact record_mono hpr
            have heqv : ((tokens.length = other_tokens.length : Bool) && all_eq) =
                is_equal_verdict tokens other_tokens := by
              rw [hbool]
              rfl
            refine ⟨⟨fun x hx => hsub (List.mem_cons_of_mem _ hx), ?_, ?_, ?_, ?_, ?_⟩,
              hname_p⟩
            · -- closure
              intro m hm
              rcases hclose m hm with hm1 | hvk
              · rcases List.mem_cons.mp hm1 with rfl | hm0
                · refine Or.inr ⟨tokens, other_tokens, hts, hots, ?_, ?_⟩
                  · intro r hr
                    exact hrefs r hr
                  · intro hne
                    rw [hc']
                    rw [heqv]
                    rw [if_neg (by
                      intro hv
                      exact hne ((is_equal_verdict_iff tokens other_tokens).mp hv))]
                    exact record_mem_self m tokens other_tokens cc
                · exact Or.inl hm0
              · exact Or.inr (visitedOK_mono hvk (fun x hx => hx) hcc_sub)
            · -- change monotonicity
              intro m pr hpr
              exact hcc_sub m pr (hmono m pr hpr)
            · -- entries of already-visited names untouched
              intro m hm
              have hmn : m ≠ name := fun he => hmem (he ▸ hm)
              have h1 : lookupCD cc m = lookupCD changes m :=
                hpres m (List.mem_cons_of_mem _ hm)
              rw [hc']
              split
              · exact h1
              · rw [lookupCD_record_other _ _ _ hmn]
                exact h1
            · -- per-name dedup preserved
              intro hnd m
              rw [hc']
              split
              · exact hndc hnd m
              · exact record_nodup (hndc hnd) m
            · -- visited set stays duplicate-free
              intro hnd
              exact hndp (List.nodup_cons.mpr ⟨hmem, hnd⟩)

/-! ### Termination: the fuel bound is sufficient -/

theorem gtt_some_record {c : SymCorpus} {file : SymFile} {name : String} {ts : Tokens}
    (h : get_type_tokens c file name = some ts) :
    ∃ idx, alookup name file.records = some idx := by
  unfold get_type_tokens at h
  cases hl : alookup name file.records with
  | none => rw [hl] at h; cases h
  | some idx => exact ⟨idx, rfl⟩

theorem loop_step_fuelOut {cmp : String → List String → TypeChanges →
      CRes (List String × TypeChanges)}
    {token other_token : Token} {processed : List String} {changes : TypeChanges}
    (h : loop_step cmp token other_token processed changes = .fuelOut) :
    ∃ r, token = .TypeRef r ∧ other_token = .TypeRef r ∧
      cmp r processed changes = .fuelOut := by
  cases token with
  | TypeRef ref_name =>
    cases other_token with
    | TypeRef other_ref_name =>
      by_cases hr : ref_name = other_ref_name
      · subst hr
        rw [ls_ref_eq] at h
        cases hc : cmp ref_name processed changes with
        | panic => rw [hc] at h; cases h
        | fuelOut => exact ⟨ref_name, rfl, rfl, hc⟩
        | ok pc => rcases pc with ⟨p, c⟩; rw [hc] at h; cases h
      · rw [ls_ref_ne cmp _ _ _ _ hr] at h
        cases h
    | Atom other_word => rw [ls_mixed_ra] at h; cases h
  | Atom word =>
    cases other_token with
    | TypeRef other_ref_name => rw [ls_mixed_ar] at h; cases h
    | Atom other_word => rw [ls_atom] at h; cases h

theorem compare_loop_no_fuelOut {a b : SymCorpus} {file other_file : SymFile}
    {cmp : String → List String → TypeChanges → CRes (List String × TypeChanges)}
    (hcmp : CmpInv a b file other_file cmp) (p0 : List String)
    (hfu : ∀ r p c, p0 ⊆ p → cmp r p c ≠ .fuelOut) :
    ∀ pairs (p : List String) (c : TypeChanges), p0 ⊆ p →
      compare_loop cmp pairs p c ≠ .fuelOut := by
  intro pairs
  induction pairs with
  | nil =>
    intro p c hsub h
    rw [cl_nil] at h
    cases h
  | cons pr rest ih =>
    rcases pr with ⟨token, other_token⟩
    intro p c hsub h
    rw [cl_cons] at h
    cases hstep : loop_step cmp token other_token p c with
    | panic => rw [hstep] at h; cases h
    | fuelOut =>
      obtain ⟨r, _, _, hc⟩ := loop_step_fuelOut hstep
      exact hfu r p c hsub hc
    | ok tpl =>
      rcases tpl with ⟨eq1, p1, c1⟩
      rw [hstep] at h
      have h2 : (fun (res : CRes (Bool × List String × TypeChanges)) => match res with
          | CRes.ok (eqr, p2, c2) => CRes.ok (eq1 && eqr, p2, c2)
          | CRes.panic => CRes.panic
          | CRes.fuelOut => CRes.fuelOut) (compare_loop cmp rest p1 c1) =
          CRes.fuelOut := h
      clear h
      have hsub1 : p0 ⊆ p1 := by
        obtain ⟨hsi, _, _⟩ := loop_step_inv hcmp hstep
        exact fun x hx => hsi.1 (hsub hx)
      cases hrest : compare_loop cmp rest p1 c1 with
      | panic => rw [hrest] at h2; cases h2
      | fuelOut => exact ih p1 c1 hsub1 hrest
      | ok tpl2 =>
        rcases tpl2 with ⟨eqr, p2, c2⟩
        rw [hrest] at h2
        cases h2

/-- With fuel exceeding the number of unvisited record names of the A-side
file, the comparator never exhausts its fuel. -/
theorem compare_types_no_fuelOut (a b : SymCorpus) (file other_file : SymFile) :
    ∀ (fuel : Nat) (name : String) (processed : List String) (changes : TypeChanges),
      remCount file.records processed < fuel →
      compare_types fuel a b file other_file name processed changes ≠ .fuelOut := by
  intro fuel
  induction fuel with
  | zero =>
    intro name processed changes hlt
    omega
  | succ fuel ih =>
    intro name processed changes hlt hcon
    by_cases hmem : name ∈ processed
    · rw [ct_succ_mem fuel a b file other_file name processed changes hmem] at hcon
      cases hcon
    · cases hts : get_type_tokens a file name with
      | none =>
        rw [ct_succ_panic fuel a b file other_file name processed changes hmem
          (Or.inl hts)] at hcon
        cases hcon
      | some tokens =>
        cases hots : get_type_tokens b other_file name with
        | none =>
          rw [ct_succ_panic fuel a b file other_file name processed changes hmem
            (Or.inr hots)] at hcon
          cases hcon
        | some other_tokens =>
          rw [ct_succ_run fuel a b file other_file name processed changes tokens
            other_tokens hmem hts hots] at hcon
          obtain ⟨idx, hidx⟩ := gtt_some_record hts
          have hkey : name ∈ file.records.map Prod.fst := alookup_key_mem hidx
          have hrem1 : remCount file.records (name :: processed) <
              remCount file.records processed := remCount_insert_lt hkey hmem
          have hfu : ∀ r p c, (name :: processed) ⊆ p →
              compare_types fuel a b file other_file r p c ≠ .fuelOut := by
            intro r p c hsub
            apply ih r p c
            have := @remCount_mono_subset file.records (name :: processed) p hsub
            omega
          cases hloop : compare_loop
              (fun r p c => compare_types fuel a b file other_file r p c)
              (tokens.zip other_tokens) (name :: processed) changes with
          | panic => rw [hloop] at hcon; cases hcon
          | fuelOut =>
            exact compare_loop_no_fuelOut (compare_types_inv a b file other_file fuel)
              (name :: processed) hfu (tokens.zip other_tokens) (name :: processed)
              changes (fun x hx => hx) hloop
          | ok tpl =>
            rcases tpl with ⟨all_eq, p, cc⟩
            rw [hloop] at hcon
            cases hcon

/-! ### Self-comparison -/

theorem zip_self_diag {l : Tokens} {pr : Token × Token} (h : pr ∈ l.zip l) :
    pr.1 = pr.2 := by
  induction l with
  | nil => cases h
  | cons t rest ih =>
    rw [List.zip_cons_cons] at h
    rcases List.mem_cons.mp h with h1 | h2
    · rw [h1]
    · exact ih h2

theorem compare_loop_self {cmp : String → List String → TypeChanges →
      CRes (List String × TypeChanges)}
    (hcmp : ∀ r p c, cmp r p c = .panic ∨ cmp r p c = .fuelOut ∨
      ∃ p', cmp r p c = .ok (p', c)) :
    ∀ pairs (p : List String) (c : TypeChanges), (∀ pr ∈ pairs, pr.1 = pr.2) →
      compare_loop cmp pairs p c = .panic ∨ compare_loop cmp pairs p c = .fuelOut ∨
      ∃ p', compare_loop cmp pairs p c = .ok (true, p', c) := by
  intro pairs
  induction pairs with
  | nil =>
    intro p c hdiag
    exact Or.inr (Or.inr ⟨p, cl_nil cmp p c⟩)
  | cons pr rest ih =>
    rcases pr with ⟨token, other_token⟩
    intro p c hdiag
    have hdiag1 : token = other_token := hdiag (token, other_token) (List.mem_cons_self _ _)
    have hdrest : ∀ q ∈ rest, q.1 = q.2 := fun q hq => hdiag q (List.mem_cons_of_mem _ hq)
    cases token with
    | TypeRef ref_name =>
      cases hdiag1
      rcases hcmp ref_name p c with hc | hc | ⟨p1, hc⟩
      · exact Or.inl (by rw [cl_cons, ls_ref_eq, hc])
      · exact Or.inr (Or.inl (by rw [cl_cons, ls_ref_eq, hc]))
      · have hstep : loop_step cmp (Token.TypeRef ref_name) (Token.TypeRef ref_name) p c =
            CRes.ok (true, p1, c) := by rw [ls_ref_eq, hc]
        have hcl : compare_loop cmp
            ((Token.TypeRef ref_name, Token.TypeRef ref_name) :: rest) p c =
            (match compare_loop cmp rest p1 c with
             | CRes.ok (eqr, p2, c2) => CRes.ok (true && eqr, p2, c2)
             | CRes.panic => CRes.panic
             | CRes.fuelOut => CRes.fuelOut) := by
          rw [cl_cons, hstep]
        rcases ih p1 c hdrest with hr | hr | ⟨p2, hr⟩
        · exact Or.inl (by rw [hcl, hr])
        · exact Or.inr (Or.inl (by rw [hcl, hr]))
        · exact Or.inr (Or.inr ⟨p2, by rw [hcl, hr]; rfl⟩)
    | Atom word =>
      cases hdiag1
      have hstep : loop_step cmp (Token.Atom word) (Token.Atom word) p c =
          CRes.ok (true, p, c) := by
        rw [ls_atom]
        simp
      have hcl : compare_loop cmp ((Token.Atom word, Token.Atom word) :: rest) p c =
          (match compare_loop cmp rest p c with
           | CRes.ok (eqr, p2, c2) => CRes.ok (true && eqr, p2, c2)
           | CRes.panic => CRes.panic
           | CRes.fuelOut => CRes.fuelOut) := by
        rw [cl_cons, hstep]
      rcases ih p c hdrest with hr | hr | ⟨p2, hr⟩
      · exact Or.inl (by rw [hcl, hr])
      · exact Or.inr (Or.inl (by rw [hcl, hr]))
      · exact Or.inr (Or.inr ⟨p2, by rw [hcl, hr]; rfl⟩)

theorem compare_types_self (a : SymCorpus) (file : SymFile) :
    ∀ (fuel : Nat) (name : String) (processed : List String) (changes : TypeChanges),
      compare_types fuel a a file file name processed changes = .panic ∨
      compare_types fuel a a file file name processed changes = .fuelOut ∨
      ∃ p', compare_types fuel a a file file name processed changes = .ok (p', changes) := by
  intro fuel
  induction fuel with
  | zero =>
    intro name processed changes
    exact Or.inr (Or.inl (ct_zero a a file file name processed changes))
  | succ fuel ih =>
    intro name processed changes
    by_cases hmem : name ∈ processed
    · rw [ct_succ_mem fuel a a file file name processed changes hmem]
      exact Or.inr (Or.inr ⟨processed, rfl⟩)
    · cases hts : get_type_tokens a file name with
      | none =>
        rw [ct_succ_panic fuel a a file file name processed changes hmem (Or.inl hts)]
        exact Or.inl rfl
      | some tokens =>
        rw [ct_succ_run fuel a a file file name processed changes tokens tokens
          hmem hts hts]
        have hdiag : ∀ pr ∈ tokens.zip tokens, pr.1 = pr.2 := fun pr h => zip_self_diag h
        have hcmp : ∀ r p c, compare_types fuel a a file file r p c = .panic ∨
            compare_types fuel a a file file r p c = .fuelOut ∨
            ∃ p', compare_types fuel a a file file r p c = .ok (p', c) := fun r p c => ih r p c
        rcases compare_loop_self hcmp (tokens.zip tokens) (name :: processed) changes hdiag
          with hl | hl | ⟨p1, hl⟩
        · rw [hl]; exact Or.inl rfl
        · rw [hl]; exact Or.inr (Or.inl rfl)
        · refine Or.inr (Or.inr ⟨p1, ?_⟩)
          rw [hl]
          show CRes.ok (p1, if ((tokens.length = tokens.length : Bool) && true) = true
              then changes else record_type_change name tokens tokens changes) =
            CRes.ok (p1, changes)
          rw [if_pos (by simp)]

/-! ### Root-level orchestration -/

theorem cr_nil (a b : SymCorpus) (changes : TypeChanges) (only_a : List String) :
    compare_roots a b [] changes only_a = .ok (changes, only_a) := rfl

theorem cr_cons_nofile (a b : SymCorpus) (name : String) (file_idx : Nat)
    (rest : List (String × Nat)) (changes : TypeChanges) (only_a : List String)
    (hf : a.files.get? file_idx = none) :
    compare_roots a b ((name, file_idx) :: rest) changes only_a = .panic := by
  conv_lhs => rw [compare_roots]
  rw [hf]

theorem cr_cons_missing (a b : SymCorpus) (name : String) (file_idx : Nat)
    (rest : List (String × Nat)) (changes : TypeChanges) (only_a : List String)
    (file : SymFile) (hf : a.files.get? file_idx = some file)
    (hb : alookup name b.exports = none) :
    compare_roots a b ((name, file_idx) :: rest) changes only_a =
      compare_roots a b rest changes (only_a ++ [name]) := by
  conv_lhs => rw [compare_roots]
  rw [hf]
  show (match alookup name b.exports with
        | some other_file_idx =>
          match b.files.get? other_file_idx with
          | none => CRes.panic
          | some other_file =>
            match compare_types (file.records.length + 1) a b file other_file name [] changes
              with
            | CRes.ok (_, changes2) => compare_roots a b rest changes2 only_a
            | CRes.panic => CRes.panic
            | CRes.fuelOut => CRes.fuelOut
        | none => compare_roots a b rest changes (only_a ++ [name])) =
    compare_roots a b rest changes (only_a ++ [name])
  rw [hb]

theorem cr_cons_noofile (a b : SymCorpus) (name : String) (file_idx : Nat)
    (rest : List (String × Nat)) (changes : TypeChanges) (only_a : List String)
    (file : SymFile) (other_file_idx : Nat)
    (hf : a.files.get? file_idx = some file)
    (hb : alookup name b.exports = some other_file_idx)
    (hof : b.files.get? other_file_idx = none) :
    compare_roots a b ((name, file_idx) :: rest) changes only_a = .panic := by
  conv_lhs => rw [compare_roots]
  rw [hf]
  show (match alookup name b.exports with
        | some other_file_idx =>
          match b.files.get? other_file_idx with
          | none => CRes.panic
          | some other_file =>
            match compare_types (file.records.length + 1) a b file other_file name [] changes
              with
            | CRes.ok (_, changes2) => compare_roots a b rest changes2 only_a
            | CRes.panic => CRes.panic
            | CRes.fuelOut => CRes.fuelOut
        | none => compare_roots a b rest changes (only_a ++ [name])) = CRes.panic
  rw [hb]
  show (match b.files.get? other_file_idx with
        | none => CRes.panic
        | some other_file =>
          match compare_types (file.records.length + 1) a b file other_file name [] changes
            with
          | CRes.ok (_, changes2) => compare_roots a b rest changes2 only_a
          | CRes.panic => CRes.panic
          | CRes.fuelOut => CRes.fuelOut) = CRes.panic
  rw [hof]

theorem cr_cons_run (a b : SymCorpus) (name : String) (file_idx : Nat)
    (rest : List (String × Nat)) (changes : TypeChanges) (only_a : List String)
    (file other_file : SymFile) (other_file_idx : Nat)
    (hf : a.files.get? file_idx = some file)
    (hb : alookup name b.exports = some other_file_idx)
    (hof : b.files.get? other_file_idx = some other_file) :
    compare_roots a b ((name, file_idx) :: rest) changes only_a =
      (match compare_types (file.records.length + 1) a b file other_file name [] changes with
       | .ok (_, changes2) => compare_roots a b rest changes2 only_a
       | .panic => .panic
       | .fuelOut => .fuelOut) := by
  conv_lhs => rw [compare_roots]
  rw [hf]
  show (match alookup name b.exports with
        | some other_file_idx =>
          match b.files.get? other_file_idx with
          | none => CRes.panic
          | some other_file =>
            match compare_types (file.records.length + 1) a b file other_file name [] changes
              with
            | CRes.ok (_, changes2) => compare_roots a b rest changes2 only_a
            | CRes.panic => CRes.panic
            | CRes.fuelOut => CRes.fuelOut
        | none => compare_roots a b rest changes (only_a ++ [name])) = _
  rw [hb]
  show (match b.files.get? other_file_idx with
        | none => CRes.panic
        | some other_file =>
          match compare_types (file.records.length + 1) a b file other_file name [] changes
            with
          | CRes.ok (_, changes2) => compare_roots a b rest changes2 only_a
          | CRes.panic => CRes.panic
          | CRes.fuelOut => CRes.fuelOut) = _
  rw [hof]

/-- The per-root fuel `records.length + 1` always suffices, so the root loop
never exhausts fuel. -/
theorem compare_roots_no_fuelOut (a b : SymCorpus) :
    ∀ (exps : List (String × Nat)) (changes : TypeChanges) (only_a : List String),
      compare_roots a b exps changes only_a ≠ .fuelOut := by
  intro exps
  induction exps with
  | nil =>
    intro changes only_a h
    rw [cr_nil] at h
    cases h
  | cons e rest ih =>
    rcases e with ⟨name, file_idx⟩
    intro changes only_a h
    cases hf : a.files.get? file_idx with
    | none =>
      rw [cr_cons_nofile a b name file_idx rest changes only_a hf] at h
      cases h
    | some file =>
      cases hb : alookup name b.exports with
      | none =>
        rw [cr_cons_missing a b name file_idx rest changes only_a file hf hb] at h
        exact ih _ _ h
      | some other_file_idx =>
        cases hof : b.files.get? other_file_idx with
        | none =>
          rw [cr_cons_noofile a b name file_idx rest changes only_a file
            other_file_idx hf hb hof] at h
          cases h
        | some other_file =>
          rw [cr_cons_run a b name file_idx rest changes only_a file other_file
            other_file_idx hf hb hof] at h
          have hfuel : remCount file.records [] < file.records.length + 1 := by
            have := remCount_le_length file.records []
            omega
          cases hct : compare_types (file.records.length + 1) a b file other_file
              name [] changes with
          | panic => rw [hct] at h; cases h
          | fuelOut =>
            exact compare_types_no_fuelOut a b file other_file
              (file.records.length + 1) name [] changes hfuel hct
          | ok pc =>
            rcases pc with ⟨p2, changes2⟩
            rw [hct] at h
            exact ih _ _ h

theorem compare_with_no_fuelOut (a b : SymCorpus) : compare_with a b ≠ .fuelOut := by
  intro h
  unfold compare_with at h
  cases hr : compare_roots a b a.exports [] [] with
  | panic => rw [hr] at h; cases h
  | fuelOut => exact compare_roots_no_fuelOut a b a.exports [] [] hr
  | ok pc =>
    rcases pc with ⟨changes, only_a⟩
    rw [hr] at h
    cases h

/-- Self-comparison root loop: the change set is never extended (or the run
aborts on a resolution panic). -/
theorem compare_roots_self (c : SymCorpus)
    (hnd : (c.exports.map Prod.fst).Nodup) :
    ∀ (exps : List (String × Nat)), (∀ e ∈ exps, e ∈ c.exports) →
      ∀ (changes : TypeChanges) (only_a : List String),
        compare_roots c c exps changes only_a = .panic ∨
        compare_roots c c exps changes only_a = .ok (changes, only_a) := by
  intro exps
  induction exps with
  | nil =>
    intro hsub changes only_a
    exact Or.inr (cr_nil c c changes only_a)
  | cons e rest ih =>
    rcases e with ⟨name, file_idx⟩
    intro hsub changes only_a
    have hmem : (name, file_idx) ∈ c.exports := hsub _ (List.mem_cons_self _ _)
    have hsub' : ∀ e ∈ rest, e ∈ c.exports := fun e he => hsub e (List.mem_cons_of_mem _ he)
    cases hf : c.files.get? file_idx with
    | none =>
      exact Or.inl (cr_cons_nofile c c name file_idx rest changes only_a hf)
    | some file =>
      have hb : alookup name c.exports = some file_idx := alookup_eq_of_mem_nodup hnd hmem
      rw [cr_cons_run c c name file_idx rest changes only_a file file file_idx hf hb hf]
      have hfuel : remCount file.records [] < file.records.length + 1 := by
        have := remCount_le_length file.records []
        omega
      rcases compare_types_self c file (file.records.length + 1) name [] changes
        with hct | hct | ⟨p1, hct⟩
      · rw [hct]
        exact Or.inl rfl
      · exact absurd hct (compare_types_no_fuelOut c c file file
          (file.records.length + 1) name [] changes hfuel)
      · rw [hct]
        exact ih hsub' changes only_a

/-- Comparing a corpus with itself reports no export as one-sided. -/
theorem self_only_b_nil (c : SymCorpus) :
    (c.exports.map Prod.fst).filter (fun n => (alookup n c.exports).isNone) = [] := by
  rw [List.filter_eq_nil]
  intro n hn
  rcases List.mem_map.mp hn with ⟨e, he, hfst⟩
  rcases e with ⟨n', v⟩
  simp only at hfst
  subst hfst
  have hs := alookup_isSome_of_mem he
  cases hl : alookup n' c.exports with
  | none => rw [hl] at hs; cases hs
  | some w => simp [Option.isNone, hl]

theorem cw_of_roots_ok {a b : SymCorpus} {changes : TypeChanges} {only_a : List String}
    (h : compare_roots a b a.exports [] [] = .ok (changes, only_a)) :
    compare_with a b = .ok (changes, only_a,
      (b.exports.map Prod.fst).filter (fun n => (alookup n a.exports).isNone)) := by
  unfold compare_with
  rw [h]

theorem cw_of_roots_panic {a b : SymCorpus}
    (h : compare_roots a b a.exports [] [] = .panic) :
    compare_with a b = .panic := by
  unfold compare_with
  rw [h]

/-! ### Claim theorems -/

theorem tokenizeWord_eq (w : String) :
    tokenizeWord w =
      (if w.data.get? 1 = some '#' then Token.TypeRef w else Token.Atom w) := by
  unfold tokenizeWord
  cases hch : w.data.get? 1 with
  | none => simp
  | some ch =>
    by_cases h : ch = '#'
    · subst h
      simp
    · simp [h]

/-- C5: Type Table merge is deduplicating and append-only: the returned index
points at a variant equal to the merged content, re-merging the same sequence
returns the same index and leaves the table unchanged, merging a structurally
different sequence returns a different index, no stored variant is ever
removed or modified, and the no-duplicate-variants invariant is preserved. -/
theorem C5_merge_dedup_append_only
    {types : Types} {name : String} {tokens : Tokens} {i : Nat} {types' : Types}
    (h : merge_type types name tokens = (i, types')) :
    (∃ vs, alookup name types' = some vs ∧ vs.get? i = some tokens) ∧
    merge_type types' name tokens = (i, types') ∧
    (∀ tokens2 j types2, tokens2 ≠ tokens →
      merge_type types' name tokens2 = (j, types2) → j ≠ i) ∧
    (∀ n vs k v, alookup n types = some vs → vs.get? k = some v →
      ∃ vs2, alookup n types' = some vs2 ∧ vs2.get? k = some v) ∧
    ((∀ n vs, alookup n types = some vs → vs.Nodup) →
      ∀ n vs, alookup n types' = some vs → vs.Nodup) := by
  obtain ⟨vs1, hvs1, hget1⟩ := merge_type_found h
  refine ⟨⟨vs1, hvs1, hget1⟩, merge_type_idem h, ?_, ?_, merge_type_nodup h⟩
  · intro tokens2 j types2 hne h2 hji
    subst hji
    obtain ⟨vs2, hvs2, hget2⟩ := merge_type_found h2
    obtain ⟨ext, hext⟩ := merge_type_extends h2 name vs1 hvs1
    rw [hext] at hvs2
    cases hvs2
    have hlt : j < vs1.length := get?_some_lt hget1
    rw [List.get?_append hlt] at hget2
    rw [hget1] at hget2
    cases hget2
    exact hne rfl
  · intro n vs k v hvs hgk
    obtain ⟨ext, hext⟩ := merge_type_extends h n vs hvs
    refine ⟨vs ++ ext, hext, ?_⟩
    rw [List.get?_append (get?_some_lt hgk)]
    exact hgk

theorem C5_witness :
    merge_type [] "foo" [Token.Atom "x"] = (0, [("foo", [[Token.Atom "x"]])]) ∧
    (∃ vs, alookup "foo" [("foo", [[Token.Atom "x"]])] = some vs ∧
      vs.get? 0 = some [Token.Atom "x"]) ∧
    merge_type [("foo", [[Token.Atom "x"]])] "foo" [Token.Atom "x"] =
      (0, [("foo", [[Token.Atom "x"]])]) :=
  ⟨rfl,
   (@C5_merge_dedup_append_only [] "foo" [Token.Atom "x"] 0
     [("foo", [[Token.Atom "x"]])] rfl).1,
   (@C5_merge_dedup_append_only [] "foo" [Token.Atom "x"] 0
     [("foo", [[Token.Atom "x"]])] rfl).2.1⟩

/-- C6 (counterexample): the one-character declared name `f` has no second
character, so it is not reference-marked, yet the loader does not insert it
into the Export Index — refuting the claim that every non-reference-marked
name, including names shorter than two characters, is exported. -/
theorem C6_counterexample :
    "f".data.get? 1 = none ∧ ¬ "f".data.get? 1 = some '#' ∧
    alookup "f" ((processLine emptyCorpus [] ["f", "int"]).1.exports) = none := by
  refine ⟨rfl, by decide, rfl⟩

/-- C6 (amended): a declared name is inserted into the Export Index, pointing
at the current file, exactly when it has a second character and that character
is not `#`; names whose second character is `#` and names shorter than two
characters leave the Export Index unchanged. -/
theorem C6_export_insertion_amended
    (c : SymCorpus) (records : FileRecords) (name : String) (rest : List String) :
    (∀ ch, name.data.get? 1 = some ch → ch ≠ '#' →
       alookup name (processLine c records (name :: rest)).1.exports =
         some c.files.length) ∧
    (name.data.get? 1 = some '#' →
       (processLine c records (name :: rest)).1.exports = c.exports) ∧
    (name.data.get? 1 = none →
       (processLine c records (name :: rest)).1.exports = c.exports) := by
  have hex : (processLine c records (name :: rest)).1.exports =
      exportUpdate name c.files.length c.exports := rfl
  refine ⟨?_, ?_, ?_⟩
  · intro ch hch hne
    rw [hex, exportUpdate_ne name c.files.length c.exports hch hne, alookup_ainsert_self]
  · intro hch
    rw [hex, exportUpdate_hash name c.files.length c.exports hch]
  · intro hch
    rw [hex, exportUpdate_none name c.files.length c.exports hch]

theorem C6_witness :
    "foo".data.get? 1 = some 'o' ∧ ('o' : Char) ≠ '#' ∧
    alookup "foo" ((processLine emptyCorpus [] ["foo", "int"]).1.exports) = some 0 :=
  ⟨rfl, by decide,
    (C6_export_insertion_amended emptyCorpus [] "foo" ["int"]).1 'o' rfl (by decide)⟩

/-- C7 (counterexample): a line holding only the declared name `myname` is not
skipped: processing it adds an empty-sequence variant to the Type Table, an
entry to the current File Record, and (the name not being reference-marked) an
Export Index entry — refuting the claim that name-only lines add nothing. -/
theorem C7_counterexample :
    alookup "myname" ((processLine emptyCorpus [] ["myname"]).1.types) = some [[]] ∧
    alookup "myname" ((processLine emptyCorpus [] ["myname"]).2) = some 0 ∧
    alookup "myname" ((processLine emptyCorpus [] ["myname"]).1.exports) = some 0 :=
  ⟨rfl, rfl, rfl⟩

/-- C7 (amended): only a line with no words at all is silently skipped (it
changes nothing); a line holding only a declared name is processed as a
zero-token declaration: the name is recorded in the File Record with a variant
index that selects the empty token sequence interned in the Type Table. -/
theorem C7_malformed_lines_amended :
    (∀ (c : SymCorpus) (records : FileRecords), processLine c records [] = (c, records)) ∧
    (∀ (c : SymCorpus) (records : FileRecords) (name : String),
       alookup name (processLine c records [name]).2 =
         some (merge_type c.types name []).1 ∧
       ∃ vs, alookup name (processLine c records [name]).1.types = some vs ∧
         vs.get? (merge_type c.types name []).1 = some []) := by
  refine ⟨fun c records => rfl, fun c records name => ⟨?_, ?_⟩⟩
  · have hrec : (processLine c records [name]).2 =
        ainsert name (merge_type c.types name []).1 records := rfl
    rw [hrec, alookup_ainsert_self]
  · have hty : (processLine c records [name]).1.types = (merge_type c.types name []).2 := rfl
    rw [hty]
    exact merge_type_found (rfl : merge_type c.types name [] =
      ((merge_type c.types name []).1, (merge_type c.types name []).2))

/-- C8: a word after the declared name becomes a `TypeRef` exactly when its
second character is `#`; every other word, including words shorter than two
characters, becomes an `Atom`; in both cases the stored text is the full
original word. -/
theorem C8_tokenization (w : String) :
    (tokenizeWord w = Token.TypeRef w ↔ w.data.get? 1 = some '#') ∧
    (tokenizeWord w = Token.Atom w ↔ ¬ w.data.get? 1 = some '#') ∧
    (tokenizeWord w).as_str = w := by
  rw [tokenizeWord_eq]
  by_cases h : w.data.get? 1 = some '#'
  · rw [if_pos h]
    have h2 : w.data[1]? = some '#' := by rw [← List.get?_eq_getElem?]; exact h
    refine ⟨by simp [h2], by simp [h2], rfl⟩
  · rw [if_neg h]
    have h2 : ¬ w.data[1]? = some '#' := by rw [← List.get?_eq_getElem?]; exact h
    refine ⟨by simp [h2], by simp [h2], rfl⟩

/-- C10: after a successful load every File Record entry selects an existing
variant of an existing Type Table name, so resolving any recorded name of any
file of the corpus never reaches a panic branch and never indexes out of
bounds. -/
theorem C10_load_consistency (inputs : List (String × List (List String))) :
    corpus_wf (load_files inputs) ∧
    ∀ file ∈ (load_files inputs).files, ∀ name idx,
      alookup name file.records = some idx →
      (get_type_tokens (load_files inputs) file name).isSome := by
  refine ⟨load_files_wf inputs, ?_⟩
  intro file hfile name idx hidx
  exact get_type_tokens_isSome_of_wf (load_files_wf inputs) hfile hidx

theorem C10_witness :
    (⟨"a.symtypes", [("foo", 0)]⟩ : SymFile) ∈
      (load_files [("a.symtypes", [["foo", "int"]])]).files ∧
    alookup "foo" (⟨"a.symtypes", [("foo", 0)]⟩ : SymFile).records = some 0 ∧
    (get_type_tokens (load_files [("a.symtypes", [["foo", "int"]])])
      ⟨"a.symtypes", [("foo", 0)]⟩ "foo").isSome :=
  ⟨by decide, rfl,
    (C10_load_consistency [("a.symtypes", [["foo", "int"]])]).2 _ (by decide) "foo" 0 rfl⟩

/-- C1: for a comparator call on a name not yet visited and resolvable on both
sides, the equality verdict (seeded by the length comparison and conjoined
with every per-position verdict up to the shorter length) is true exactly when
the two token sequences are equal; a Change Record holding both sequences is
merged into the change set exactly when the verdict is false, and the same
(name, A-sequence, B-sequence) triple is stored at most once. -/
theorem C1_verdict_and_change_record
    (fuel : Nat) (a b : SymCorpus) (file other_file : SymFile) (name : String)
    (processed : List String) (changes : TypeChanges) (p' : List String) (c' : TypeChanges)
    (tokens other_tokens : Tokens)
    (hmem : name ∉ processed)
    (hts : get_type_tokens a file name = some tokens)
    (hots : get_type_tokens b other_file name = some other_tokens)
    (h : compare_types fuel a b file other_file name processed changes = .ok (p', c')) :
    (is_equal_verdict tokens other_tokens = true ↔ tokens = other_tokens) ∧
    (tokens = other_tokens → lookupCD c' name = lookupCD changes name) ∧
    (tokens ≠ other_tokens →
      lookupCD c' name =
        (if (tokens, other_tokens) ∈ lookupCD changes name then lookupCD changes name
         else lookupCD changes name ++ [(tokens, other_tokens)])) ∧
    ((tokens, other_tokens) ∈ lookupCD c' name ↔
      (tokens ≠ other_tokens ∨ (tokens, other_tokens) ∈ lookupCD changes name)) ∧
    (List.count (tokens, other_tokens) (lookupCD changes name) = 0 →
      List.count (tokens, other_tokens) (lookupCD c' name) ≤ 1) := by
  cases fuel with
  | zero =>
    rw [ct_zero] at h
    cases h
  | succ fuel =>
    rw [ct_succ_run fuel a b file other_file name processed changes tokens other_tokens
      hmem hts hots] at h
    cases hloop : compare_loop (fun r p c => compare_types fuel a b file other_file r p c)
        (tokens.zip other_tokens) (name :: processed) changes with
    | panic => rw [hloop] at h; cases h
    | fuelOut => rw [hloop] at h; cases h
    | ok tpl =>
      rcases tpl with ⟨all_eq, p, cc⟩
      rw [hloop] at h
      simp only [CRes.ok.injEq, Prod.mk.injEq] at h
      obtain ⟨hp, hc⟩ := h
      subst hp
      subst hc
      obtain ⟨hsi, hrefs, hbool⟩ :=
        compare_loop_inv (compare_types_inv a b file other_file fuel)
          (tokens.zip other_tokens) (name :: processed) changes all_eq p cc hloop
      have hpresname : lookupCD cc name = lookupCD changes name :=
        hsi.2.2.2.1 name (List.mem_cons_self _ _)
      have hiev : ((tokens.length = other_tokens.length : Bool) && all_eq) =
          is_equal_verdict tokens other_tokens := by
        rw [hbool]
        rfl
      refine ⟨is_equal_verdict_iff tokens other_tokens, ?_, ?_, ?_, ?_⟩
      · intro he
        rw [hiev, if_pos ((is_equal_verdict_iff _ _).mpr he)]
        exact hpresname
      · intro hne
        rw [hiev, if_neg (fun hv => hne ((is_equal_verdict_iff _ _).mp hv))]
        rw [lookupCD_record_self, hpresname]
      · constructor
        · intro hmem2
          by_cases he : tokens = other_tokens
          · right
            rw [hiev, if_pos ((is_equal_verdict_iff _ _).mpr he), hpresname] at hmem2
            exact hmem2
          · exact Or.inl he
        · intro hor
          rcases hor with hne | hin
          · rw [hiev, if_neg (fun hv => hne ((is_equal_verdict_iff _ _).mp hv))]
            exact record_mem_self name tokens other_tokens cc
          · have h1 : (tokens, other_tokens) ∈ lookupCD cc name :=
              hsi.2.2.1 name _ hin
            rw [hiev]
            split
            · exact h1
            · exact record_mono h1
      · intro hcount
        by_cases he : tokens = other_tokens
        · rw [hiev, if_pos ((is_equal_verdict_iff _ _).mpr he), hpresname, hcount]
          omega
        · rw [hiev, if_neg (fun hv => he ((is_equal_verdict_iff _ _).mp hv))]
          rw [lookupCD_record_self, hpresname]
          have hnotin : (tokens, other_tokens) ∉ lookupCD changes name := by
            intro hin
            rw [List.count_eq_zero] at hcount
            exact hcount hin
          rw [if_neg hnotin, List.count_append, hcount]
          simp

theorem C1_witness :
    ("foo" ∉ ([] : List String)) ∧
    get_type_tokens corpusA fileA "foo" = some fooTokensA ∧
    get_type_tokens corpusB fileB "foo" = some fooTokensB ∧
    compare_types 3 corpusA corpusB fileA fileB "foo" [] [] =
      .ok (["s#bar", "foo"], resultChanges) ∧
    lookupCD resultChanges "foo" = [(fooTokensA, fooTokensB)] := by
  refine ⟨by decide, by decide, by decide, by decide, ?_⟩
  have h := C1_verdict_and_change_record 3 corpusA corpusB fileA fileB "foo" [] []
    ["s#bar", "foo"] resultChanges fooTokensA fooTokensB (by decide) (by decide)
    (by decide) (by decide)
  have h3 := h.2.2.1 (by decide)
  rw [h3]
  decide

/-- C2: the comparator recurses into every reference pair carrying the same
name on both sides regardless of the surrounding verdict, so every name
lockstep-reachable from a root is visited during the root's walk, and every
reachable type whose two resolved sequences differ has its own Change Record
in the accumulated set — even when an enclosing declaration is flagged too. -/
theorem C2_nested_changes_recorded
    (fuel : Nat) (a b : SymCorpus) (file other_file : SymFile) (root : String)
    (changes : TypeChanges) (p' : List String) (c' : TypeChanges)
    (h : compare_types fuel a b file other_file root [] changes = .ok (p', c')) :
    (∀ m, lockstep_reachable a b file other_file root m → m ∈ p') ∧
    (∀ m tm otm, lockstep_reachable a b file other_file root m →
       get_type_tokens a file m = some tm →
       get_type_tokens b other_file m = some otm →
       tm ≠ otm → (tm, otm) ∈ lookupCD c' m) := by
  obtain ⟨⟨hsub, hclose, hmono, hpres, hndc, hndp⟩, hroot⟩ :=
    compare_types_inv a b file other_file fuel root [] changes p' c' h
  have hmem_all : ∀ m, lockstep_reachable a b file other_file root m → m ∈ p' := by
    intro m hreach
    induction hreach with
    | refl => exact hroot
    | step hm h1 h2 hpair ih =>
      rcases hclose _ ih with hfalse | hvk
      · cases hfalse
      · obtain ⟨tm', otm', h1', h2', hrefs, _⟩ := hvk
        rw [h1] at h1'
        rw [h2] at h2'
        cases h1'
        cases h2'
        exact hrefs _ hpair
  refine ⟨hmem_all, ?_⟩
  intro m tm otm hreach h1 h2 hne
  rcases hclose _ (hmem_all m hreach) with hfalse | hvk
  · cases hfalse
  · obtain ⟨tm', otm', h1', h2', _, hrec⟩ := hvk
    rw [h1] at h1'
    rw [h2] at h2'
    cases h1'
    cases h2'
    exact hrec hne

theorem C2_witness :
    compare_types 3 corpusA corpusB fileA fileB "foo" [] [] =
      .ok (["s#bar", "foo"], resultChanges) ∧
    "s#bar" ∈ (["s#bar", "foo"] : List String) ∧
    ([Token.Atom "x"], [Token.Atom "y"]) ∈ lookupCD resultChanges "s#bar" := by
  have hreach : lockstep_reachable corpusA corpusB fileA fileB "foo" "s#bar" :=
    @lockstep_reachable.step corpusA corpusB fileA fileB "foo" "foo" "s#bar"
      fooTokensA fooTokensB lockstep_reachable.refl (by decide) (by decide) (by decide)
  have h := C2_nested_changes_recorded 3 corpusA corpusB fileA fileB "foo" []
    ["s#bar", "foo"] resultChanges (by decide)
  exact ⟨by decide, h.1 "s#bar" hreach,
    h.2 "s#bar" [Token.Atom "x"] [Token.Atom "y"] hreach (by decide) (by decide) (by decide)⟩

/-- C3 (counterexample): a loaded corpus may contain a dangling type
reference (`foo s#bar` with no declaration of `s#bar`); comparing such a
corpus against itself aborts in the unknown-name panic branch instead of
completing with zero Change Records. -/
theorem C3_counterexample :
    compare_with danglingCorpus danglingCorpus = .panic ∧
    compare_with danglingCorpus danglingCorpus ≠ .ok ([], [], []) := by
  exact ⟨by decide, by decide⟩

/-- C3 (amended): for every loaded corpus, the full self-comparison either
aborts with the internal-consistency panic (possible only when some walked
reference fails to resolve) or completes with zero Change Records and empty
one-sided export reports. -/
theorem C3_self_comparison_amended (inputs : List (String × List (List String))) :
    compare_with (load_files inputs) (load_files inputs) = .panic ∨
    compare_with (load_files inputs) (load_files inputs) = .ok ([], [], []) := by
  have hnd := load_files_exports_nodup inputs
  rcases compare_roots_self (load_files inputs) hnd (load_files inputs).exports
    (fun e he => he) [] [] with h | h
  · exact Or.inl (cw_of_roots_panic h)
  · right
    rw [cw_of_roots_ok h, self_only_b_nil (load_files inputs)]

/-- C4: the comparator's walk terminates on every input, cyclic type graphs
included: any fuel exceeding the unvisited record count of the A-side file is
never exhausted, the full comparison never runs out of fuel, a re-entered name
returns immediately without re-deriving anything, and within one root neither
the visited set nor any per-name change list acquires duplicates. -/
theorem C4_cycle_termination :
    (∀ (fuel : Nat) (a b : SymCorpus) (file other_file : SymFile) (name : String)
       (processed : List String) (changes : TypeChanges),
       remCount file.records processed < fuel →
       compare_types fuel a b file other_file name processed changes ≠ .fuelOut) ∧
    (∀ a b : SymCorpus, compare_with a b ≠ .fuelOut) ∧
    (∀ (fuel : Nat) (a b : SymCorpus) (file other_file : SymFile) (name : String)
       (processed : List String) (changes : TypeChanges), name ∈ processed →
       compare_types (fuel + 1) a b file other_file name processed changes =
         .ok (processed, changes)) ∧
    (∀ (fuel : Nat) (a b : SymCorpus) (file other_file : SymFile) (name : String)
       (processed : List String) (changes : TypeChanges) (p' : List String)
       (c' : TypeChanges),
       compare_types fuel a b file other_file name processed changes = .ok (p', c') →
       ((∀ m, (lookupCD changes m).Nodup) → ∀ m, (lookupCD c' m).Nodup) ∧
       (processed.Nodup → p'.Nodup)) := by
  refine ⟨fun fuel a b file other_file name processed changes h =>
      compare_types_no_fuelOut a b file other_file fuel name processed changes h,
    compare_with_no_fuelOut,
    fun fuel a b file other_file name processed changes h =>
      ct_succ_mem fuel a b file other_file name processed changes h, ?_⟩
  intro fuel a b file other_file name processed changes p' c' h
  have hinv := compare_types_inv a b file other_file fuel name processed changes p' c' h
  exact ⟨hinv.1.2.2.2.2.1, hinv.1.2.2.2.2.2⟩

theorem C4_witness :
    remCount cyclicFile.records [] < 3 ∧
    compare_types 3 cyclicCorpus cyclicCorpus cyclicFile cyclicFile "foo" [] [] ≠
      CRes.fuelOut ∧
    ("s#a" ∈ (["s#a"] : List String)) ∧
    compare_types 3 cyclicCorpus cyclicCorpus cyclicFile cyclicFile "s#a" ["s#a"] [] =
      .ok (["s#a"], []) :=
  ⟨by decide,
   C4_cycle_termination.1 3 cyclicCorpus cyclicCorpus cyclicFile cyclicFile
     "foo" [] [] (by decide),
   by decide,
   C4_cycle_termination.2.2.1 2 cyclicCorpus cyclicCorpus cyclicFile cyclicFile
     "s#a" ["s#a"] [] (by decide)⟩

/-- C9: on a `\x7d` token the pretty-printer first flushes any non-empty
pending line, then decrements the indentation (never below zero), then starts
a new pending line holding the decremented indentation followed by `\x7d`; it
is total on unbalanced inputs (witnessed by the repository's imbalanced-brace
scenario), and at end of input a non-empty pending line is flushed. -/
theorem C9_pretty_close_brace :
    (∀ (st : PFState) (tok : Token), tok.as_str = "\x7d" →
       pfStep st tok = ⟨st.res ++ (if st.line = "" then [] else [st.line]),
                        st.indent - 1, tabs (st.indent - 1) ++ "\x7d"⟩ ∧
       (st.indent = 0 → (pfStep st tok).indent = 0)) ∧
    (∀ tokens : Tokens, (tokens.foldl pfStep ⟨[], 0, ""⟩).line ≠ "" →
       pretty_format_type tokens =
         (tokens.foldl pfStep ⟨[], 0, ""⟩).res ++
           [(tokens.foldl pfStep ⟨[], 0, ""⟩).line]) ∧
    pretty_format_type imbalancedTokens =
      ["struct imbalanced \x7b", "\t\x7b", "\t\x7d", "\x7d", "\x7d;", "\x7b", "\t\x7b"] := by
  refine ⟨?_, ?_, by decide⟩
  · intro st tok h
    rcases st with ⟨res0, indent0, line0⟩
    constructor
    · by_cases hl : line0 = ""
      · subst hl
        unfold pfStep
        rw [h]
        simp
      · unfold pfStep
        rw [h]
        simp [hl]
    · intro hz
      simp only at hz
      subst hz
      unfold pfStep
      rw [h]
      simp
  · intro tokens h0
    unfold pretty_format_type
    rw [if_neg h0]

theorem C9_witness :
    (Token.Atom "\x7d").as_str = "\x7d" ∧
    pfStep ⟨["x"], 2, "int y"⟩ (Token.Atom "\x7d") = ⟨["x", "int y"], 1, "\t\x7d"⟩ ∧
    ((([Token.Atom "a"] : Tokens).foldl pfStep ⟨[], 0, ""⟩).line ≠ "") ∧
    pretty_format_type [Token.Atom "a"] = ["a"] := by
  refine ⟨rfl, ?_, by decide, ?_⟩
  · exact ((C9_pretty_close_brace.1 ⟨["x"], 2, "int y"⟩ (Token.Atom "\x7d") rfl).1).trans
      (by decide)
  · exact (C9_pretty_close_brace.2.1 [Token.Atom "a"] (by decide)).trans (by decide)

end SymTypes
